import Mathlib

/-!
# doit: the recipe execution engine (`pkg/recipe/recipe.go`)

A shallow embedding of the Go package `recipe` and a verification of its
construction (`New`), execution (`Cook`) and resume-point logic.

Modelling conventions
* `[]byte` is a list of bytes; a nil slice and an empty slice are both `[]`.
* `io.Reader` is a finite stream: the bytes `io.ReadAll` delivers and the error it
  ends with, if any.  `bytes.NewReader b` is the stream of `b` that ends cleanly.
* `error` is a value with the text `Error()` returns and an identity (two errors
  with the same text are different values); `nil` is `none`.
* Go `int` is `Int`; `len` never overflows it.
* A `StepFunc` is a function of the stream it is handed.
* A run-time panic (nil function call, index out of range, nil pointer,
  `mustDupReader` on a stream that fails) is an explicit outcome.
* `Cook` additionally reports the calls `step.Do(input)` it made, in order: a
  ghost trace that the Go code does not keep, used to state which steps ran.
* The fields `prevState` and `state` of a Recipe are modelled twice: by the State
  they point to (`Recipe`, `New`, `Cook`) and as pointers into the list of
  allocated State objects (`RecipeRef`, `NewRef`, `CookRef`), where the identity
  of the objects matters; `NewRef_eq_New` and `CookRef_eq_Cook` show that the two
  agree.
-/

namespace Doit

/-! ## Data model -/

abbrev Byte := Fin 256

abbrev Bytes := List Byte

/-- Go `error` value (non-nil): the text returned by `Error()` and an identity. -/
structure GoError where
  text : String
  ident : Nat
deriving DecidableEq

/-- Method `Error()` of an `error`. -/
def GoError.Error (e : GoError) : String := e.text

/-- An `io.Reader`: what `io.ReadAll` returns for it. -/
structure Reader where
  data : Bytes
  fault : Option GoError
deriving DecidableEq

/-- Go `bytes.NewReader(b)`. -/
def bytesNewReader (b : Bytes) : Reader := ⟨b, none⟩

/-- Go `io.ReadAll(r)`. -/
def ioReadAll (r : Reader) : Bytes × Option GoError := (r.data, r.fault)

/-- Go `type StepFunc func(io.Reader) (io.Reader, error)`. -/
abbrev StepFunc := Reader → Reader × Option GoError

/-- Go `type StepFuncMap map[string]StepFunc`; a missing key reads as the nil function. -/
abbrev StepFuncMap := String → Option StepFunc

/-- Go `type Step struct`; `StepFunc` is `none` for the nil function. -/
structure Step where
  Kind : String
  Name : String
  StepFunc : Option StepFunc

/-- Go `func (s *Step) Do(input io.Reader) (io.Reader, error)`;
`none` is the panic of calling a nil function. -/
def Step.Do (s : Step) (input : Reader) : Option (Reader × Option GoError) :=
  match s.StepFunc with
  | none => none
  | some f => some (f input)

/-- Go `type Action struct`. -/
structure Action where
  StepIndex : Int
  StepName : String
  Input : Bytes
  Output : Bytes
  Err : String
deriving DecidableEq

/-- Go `type State struct`. -/
structure State where
  Actions : List Action
deriving DecidableEq

/-- Go `type Recipe struct`; the two pointers are `none` when nil. -/
structure Recipe where
  Kind : String
  Name : String
  Steps : List Step
  prevState : Option State
  state : Option State

/-- Go `type Option func(*Recipe)`. -/
abbrev RecipeOption := Recipe → Recipe

/-- Go `WithState(s)`: the option that stores `s` as the previous state. -/
def WithState (s : Option State) : RecipeOption :=
  fun r => { r with prevState := s }

/-! ## Cook -/

/-- Why a call panicked. -/
inductive PanicReason where
  | indexOutOfRange
  | nilFunc
  | nilState
  | readAll (e : GoError)
deriving DecidableEq

/-- How a call of `Cook` ends. -/
inductive Outcome where
  | ok (output : Reader)
  | error (err : GoError)
  | panic (why : PanicReason)
deriving DecidableEq

/-- One call `step.Do(input)` made by `Cook` (ghost trace entry). -/
structure Call where
  stepIdx : Int
  input : Bytes
deriving DecidableEq

/-- What a call of `Cook` leaves behind. -/
structure CookResult where
  outcome : Outcome
  state : Option State
  calls : List Call
deriving DecidableEq

/-- Go `mustDupReader`; `Except.error` is its panic. -/
def mustDupReader (r : Reader) : Except GoError (Reader × Bytes) :=
  match ioReadAll r with
  | (text, none) => .ok (bytesNewReader text, text)
  | (_, some err) => .error err

/-- Go slice indexing `steps[i]`; `none` is the index-out-of-range panic. -/
def indexStep (steps : List Step) (i : Int) : Option Step :=
  if i < 0 then none else steps[i.toNat]?

/-- Go slice indexing `actions[i]`; `none` is the index-out-of-range panic. -/
def indexAction (actions : List Action) (i : Int) : Option Action :=
  if i < 0 then none else actions[i.toNat]?

/-- The scan `for actionIdx, a := range r.prevState.Actions` of `Cook`, from
position `actionIdx` on, returning the final `(stepIdx, outputIdx)`. -/
def scanActions : List Action → Int → Int → Int → Int × Int
  | [], _, stepIdx, outputIdx => (stepIdx, outputIdx)
  | a :: rest, actionIdx, stepIdx, outputIdx =>
    if a.Err ≠ "" then (a.StepIndex, outputIdx)
    else scanActions rest (actionIdx + 1) stepIdx actionIdx

/-- The part of `Cook` before the execution loop: the step index to start at and
the stream to start with; `none` is an index-out-of-range panic. -/
def resumePoint (prevState : Option State) (input : Reader) : Option (Int × Reader) :=
  match prevState with
  | none => some (0, input)
  | some prev =>
    let (stepIdx, outputIdx) := scanActions prev.Actions 0 0 (-1)
    if outputIdx ≥ 0 then
      match indexAction prev.Actions outputIdx with
      | none => none
      | some a => some (stepIdx, bytesNewReader a.Output)
    else some (stepIdx, input)

/-- Go `r.state.Actions = append(r.state.Actions, action)`; `none` is the nil
pointer panic. -/
def appendAction (st : Option State) (action : Action) : Option State :=
  match st with
  | none => none
  | some s => some { Actions := s.Actions ++ [action] }

/-- The loop `for ; stepIdx < len(r.Steps); stepIdx++` of `Cook`.  The first
argument bounds the number of iterations; `none` means the bound was reached.
`calls` is the ghost trace: every `step.Do(input)` evaluated is appended to it,
also one that panics because the function is nil. -/
def cookLoop (steps : List Step) :
    Nat → Int → Reader → Option State → List Call → Option CookResult
  | 0, _, _, _, _ => none
  | fuel + 1, stepIdx, output, st, calls =>
    if stepIdx < (steps.length : Int) then
      match indexStep steps stepIdx with
      | none => some ⟨.panic .indexOutOfRange, st, calls⟩
      | some step =>
        match mustDupReader output with
        | .error e => some ⟨.panic (.readAll e), st, calls⟩
        | .ok (input, inputText) =>
          let calls1 := calls ++ [⟨stepIdx, inputText⟩]
          match step.Do input with
          | none => some ⟨.panic .nilFunc, st, calls1⟩
          | some (_, some err) =>
            let action : Action := ⟨stepIdx, step.Name, inputText, [], err.Error⟩
            match appendAction st action with
            | none => some ⟨.panic .nilState, st, calls1⟩
            | some st1 => some ⟨.error err, some st1, calls1⟩
          | some (out, none) =>
            match mustDupReader out with
            | .error e => some ⟨.panic (.readAll e), st, calls1⟩
            | .ok (output1, outputText) =>
              let action : Action := ⟨stepIdx, step.Name, inputText, outputText, ""⟩
              match appendAction st action with
              | none => some ⟨.panic .nilState, st, calls1⟩
              | some st1 => cookLoop steps fuel (stepIdx + 1) output1 (some st1) calls1
    else some ⟨.ok output, st, calls⟩

/-- Go `func (r *Recipe) Cook(input io.Reader) (io.Reader, error)`.  The loop tests
its condition at most `len(r.Steps) + 1` times, so the bound handed to `cookLoop`
is never reached (`Cook_returns`). -/
def Cook (r : Recipe) (input : Reader) : Option CookResult :=
  match resumePoint r.prevState input with
  | none => some ⟨.panic .indexOutOfRange, r.state, []⟩
  | some (stepIdx, output) => cookLoop r.Steps (r.Steps.length + 1) stepIdx output r.state []

/-- Go `func (r *Recipe) State() *State`. -/
def Recipe.State (r : Recipe) : Option State := r.state

/-- The Recipe as `Cook` leaves it: `r.state` is what the call appended to. -/
def Recipe.afterCook (r : Recipe) (res : CookResult) : Recipe :=
  { r with state := res.state }

/-! ## New -/

/-- One entry of `steps:` in the recipe document: the fields the decoder fills. -/
structure StepDecl where
  Kind : String
  Name : String
deriving DecidableEq

/-- What `yaml.NewDecoder(recipeYaml).Decode(&r)` did: the values of `r.Kind`,
`r.Name` and `r.Steps` after the call (the decoder never sets a `StepFunc`) and
the error it returned. -/
structure Decoded where
  Kind : String
  Name : String
  Steps : List StepDecl
  err : Option GoError
deriving DecidableEq

/-- The loop `for i := range r.Steps` of `New`: check each step's kind and bind
its function, stopping with the error at the first unsupported kind.  `errorf` is
Go `fmt.Errorf` with one argument. -/
def bindSteps (errorf : String → String → GoError) (stepFuncMap : StepFuncMap) :
    List Step → Except GoError (List Step)
  | [] => .ok []
  | s :: rest =>
    if s.Kind ≠ "step/v1" then .error (errorf "unsupported step kind: %q" s.Kind)
    else
      match bindSteps errorf stepFuncMap rest with
      | .error e => .error e
      | .ok bound => .ok ({ s with StepFunc := stepFuncMap s.Name } :: bound)

/-- Go `func New(recipeYaml io.Reader, stepFuncMap StepFuncMap, options ...Option)
(*Recipe, error)`.  The document is given by what decoding it stored; `errorf` is
Go `fmt.Errorf` with one argument. -/
def New (errorf : String → String → GoError) (doc : Decoded) (stepFuncMap : StepFuncMap)
    (options : List RecipeOption) : Option Recipe × Option GoError :=
  let r0 : Recipe := ⟨"", "", [], none, none⟩
  let r1 := options.foldl (fun r opt => opt r) r0
  let r2 : Recipe :=
    match r1.state with
    | none => { r1 with state := some ⟨[]⟩ }
    | some _ => r1
  let r3 : Recipe :=
    { r2 with Kind := doc.Kind, Name := doc.Name,
              Steps := doc.Steps.map (fun d => ⟨d.Kind, d.Name, none⟩) }
  match doc.err with
  | some err => (some r3, some err)
  | none =>
    if r3.Kind ≠ "recipe/v1" then (none, some (errorf "unsupported recipe kind: %q" r3.Kind))
    else
      match bindSteps errorf stepFuncMap r3.Steps with
      | .error e => (none, some e)
      | .ok bound => (some { r3 with Steps := bound }, none)

/-! ## Vocabulary of the specification -/

/-- The bytes step `s` returns when it is handed the bytes `x` and succeeds: its
function is bound, returns no error, and the stream it returns can be read. -/
def Step.returns (s : Step) (x : Bytes) : Option Bytes :=
  match s.Do (bytesNewReader x) with
  | some (out, none) =>
    match ioReadAll out with
    | (y, none) => some y
    | (_, some _) => none
  | _ => none

/-- The error step `s` returns when it is handed the bytes `x` and fails. -/
def Step.failsWith (s : Step) (x : Bytes) : Option GoError :=
  match s.Do (bytesNewReader x) with
  | some (_, some e) => some e
  | _ => none

/-- Steps applied in order, each to what the one before returned:
`s_{n-1}(... s_1(s_0(x)) ...)`, and `x` itself for no steps; `none` unless every
step succeeds. -/
def pipeline : List Step → Bytes → Option Bytes
  | [], x => some x
  | s :: rest, x =>
    match s.returns x with
    | none => none
    | some y => pipeline rest y

/-- The loop of `Cook` over the steps still to run, as a recursion on that list:
the outcome, the Actions appended and the calls made.  `cookLoop_eq_runSteps`
relates it to `cookLoop`. -/
def runSteps : List Step → Int → Reader → Outcome × List Action × List Call
  | [], _, output => (.ok output, [], [])
  | step :: rest, stepIdx, output =>
    match mustDupReader output with
    | .error e => (.panic (.readAll e), [], [])
    | .ok (input, inputText) =>
      match step.Do input with
      | none => (.panic .nilFunc, [], [⟨stepIdx, inputText⟩])
      | some (_, some err) =>
        (.error err, [⟨stepIdx, step.Name, inputText, [], err.Error⟩], [⟨stepIdx, inputText⟩])
      | some (out, none) =>
        match mustDupReader out with
        | .error e => (.panic (.readAll e), [], [⟨stepIdx, inputText⟩])
        | .ok (output1, outputText) =>
          let res := runSteps rest (stepIdx + 1) output1
          (res.1, ⟨stepIdx, step.Name, inputText, outputText, ""⟩ :: res.2.1,
            ⟨stepIdx, inputText⟩ :: res.2.2)

/-! ## The State objects behind the pointers

The definitions above carry the State a `*State` points to as a value.  The ones
below keep the pointers, so that the identity of the State objects and the effect
of `Cook` on each of them can be stated; `CookRef_eq_Cook` relates the two. -/

/-- The State objects allocated so far.  A non-nil `*State` is the position of its
object in this list; allocating an object appends it. -/
abbrev Heap := List State

/-- Follow a `*State`; `none` for nil (and for a position that was never allocated). -/
def Heap.deref (heap : Heap) (p : Option Nat) : Option State :=
  match p with
  | none => none
  | some a => heap[a]?

/-- Go `type Recipe struct`, the fields `prevState` and `state` kept as pointers. -/
structure RecipeRef where
  Kind : String
  Name : String
  Steps : List Step
  prevState : Option Nat
  state : Option Nat

/-- The Recipe with the two pointers followed. -/
def RecipeRef.load (r : RecipeRef) (heap : Heap) : Recipe :=
  ⟨r.Kind, r.Name, r.Steps, heap.deref r.prevState, heap.deref r.state⟩

/-- Go `WithState(s)`, `s` a pointer. -/
def WithStateRef (s : Option Nat) : RecipeRef → RecipeRef :=
  fun r => { r with prevState := s }

/-- Go `New`, the allocation `r.state = &State{}` explicit: the new object gets
the first free position.  Returns the Recipe, the error and the objects after the
call. -/
def NewRef (heap : Heap) (errorf : String → String → GoError) (doc : Decoded)
    (stepFuncMap : StepFuncMap) (options : List (RecipeRef → RecipeRef)) :
    Option RecipeRef × Option GoError × Heap :=
  let r0 : RecipeRef := ⟨"", "", [], none, none⟩
  let r1 := options.foldl (fun r opt => opt r) r0
  let alloc : RecipeRef × Heap :=
    match r1.state with
    | none => ({ r1 with state := some heap.length }, heap ++ [⟨[]⟩])
    | some _ => (r1, heap)
  let r3 : RecipeRef :=
    { alloc.1 with Kind := doc.Kind, Name := doc.Name,
                   Steps := doc.Steps.map (fun d => ⟨d.Kind, d.Name, none⟩) }
  match doc.err with
  | some err => (some r3, some err, alloc.2)
  | none =>
    if r3.Kind ≠ "recipe/v1" then
      (none, some (errorf "unsupported recipe kind: %q" r3.Kind), alloc.2)
    else
      match bindSteps errorf stepFuncMap r3.Steps with
      | .error e => (none, some e, alloc.2)
      | .ok bound => (some { r3 with Steps := bound }, none, alloc.2)

/-- Go `func (r *Recipe) State() *State`, returning the pointer. -/
def RecipeRef.State (r : RecipeRef) : Option Nat := r.state

/-- Go `r.state.Actions = append(r.state.Actions, action)` on the object `p`
points to; `none` is the nil pointer panic. -/
def appendActionRef (heap : Heap) (p : Option Nat) (action : Action) : Option Heap :=
  match p with
  | none => none
  | some a =>
    match heap[a]? with
    | none => none
    | some s => some (heap.set a { Actions := s.Actions ++ [action] })

/-- The loop of `Cook` (see `cookLoop`), appending to the object `p` points to. -/
def cookLoopRef (steps : List Step) (p : Option Nat) :
    Nat → Int → Reader → Heap → List Call → Option (Outcome × List Call × Heap)
  | 0, _, _, _, _ => none
  | fuel + 1, stepIdx, output, heap, calls =>
    if stepIdx < (steps.length : Int) then
      match indexStep steps stepIdx with
      | none => some (.panic .indexOutOfRange, calls, heap)
      | some step =>
        match mustDupReader output with
        | .error e => some (.panic (.readAll e), calls, heap)
        | .ok (input, inputText) =>
          let calls1 := calls ++ [⟨stepIdx, inputText⟩]
          match step.Do input with
          | none => some (.panic .nilFunc, calls1, heap)
          | some (_, some err) =>
            let action : Action := ⟨stepIdx, step.Name, inputText, [], err.Error⟩
            match appendActionRef heap p action with
            | none => some (.panic .nilState, calls1, heap)
            | some heap1 => some (.error err, calls1, heap1)
          | some (out, none) =>
            match mustDupReader out with
            | .error e => some (.panic (.readAll e), calls1, heap)
            | .ok (output1, outputText) =>
              let action : Action := ⟨stepIdx, step.Name, inputText, outputText, ""⟩
              match appendActionRef heap p action with
              | none => some (.panic .nilState, calls1, heap)
              | some heap1 => cookLoopRef steps p fuel (stepIdx + 1) output1 heap1 calls1
    else some (.ok output, calls, heap)

/-- Go `Cook` on a Recipe with pointers: the previous State is read through
`r.prevState` before the loop, every append goes to the object `r.state` points
to.  Returns the outcome, the calls made and the objects after the call. -/
def CookRef (heap : Heap) (r : RecipeRef) (input : Reader) :
    Option (Outcome × List Call × Heap) :=
  match resumePoint (heap.deref r.prevState) input with
  | none => some (.panic .indexOutOfRange, [], heap)
  | some (stepIdx, output) =>
    cookLoopRef r.Steps r.state (r.Steps.length + 1) stepIdx output heap []

/-- Store a log at the object a pointer points to. -/
def Heap.store (heap : Heap) (p : Option Nat) (st : Option State) : Heap :=
  match p, st with
  | some a, some s => heap.set a s
  | _, _ => heap

/-! ## Concrete steps and recipes used as examples -/

namespace Example

/-- A step that hands its input on unchanged. -/
def passStep : Step := ⟨"step/v1", "pass", some (fun r => (r, none))⟩

/-- A step that puts the byte 7 in front of its input. -/
def tagStep : Step := ⟨"step/v1", "tag", some (fun r => (⟨7 :: r.data, r.fault⟩, none))⟩

/-- A step that always fails with the given error, returning a nil stream. -/
def failStep (e : GoError) : Step := ⟨"step/v1", "fail", some (fun _ => (⟨[], none⟩, some e))⟩

/-- An error with a message. -/
def boom : GoError := ⟨"boom", 1⟩

/-- Go `errors.New("")`: an error whose message is the empty string. -/
def silent : GoError := ⟨"", 2⟩

/-- A Recipe as `New` builds it from a valid document with the given steps. -/
def fresh (steps : List Step) (prev : Option State) : Recipe :=
  ⟨"recipe/v1", "example", steps, prev, some ⟨[]⟩⟩

/-- A State recording that step 0 passed and step 1 failed. -/
def passedThenFailed : State :=
  ⟨[⟨0, "pass", [1], [5], ""⟩, ⟨1, "tag", [5], [], "boom"⟩]⟩

/-- A stand-in for `fmt.Errorf` with one argument: the format followed by the argument. -/
def errorf (format arg : String) : GoError := ⟨format ++ arg, 0⟩

/-- A registry that knows the two steps `pass` and `tag`. -/
def registry : StepFuncMap := fun name =>
  if name = "pass" then passStep.StepFunc
  else if name = "tag" then tagStep.StepFunc
  else none

/-- A decoded document with a supported Recipe kind and two unsupported step kinds. -/
def badStepsDoc : Decoded :=
  ⟨"recipe/v1", "example", [⟨"step/v1", "pass"⟩, ⟨"step/v2", "tag"⟩, ⟨"step/v3", "tag"⟩], none⟩

/-- The decoded document of the tests: two steps of supported kind. -/
def goodDoc : Decoded :=
  ⟨"recipe/v1", "test recipe", [⟨"step/v1", "pass"⟩, ⟨"step/v1", "tag"⟩], none⟩

/-- A State that records two passed steps and a failure at step index 2. -/
def staleState : State :=
  ⟨[⟨0, "pass", [1], [1], ""⟩, ⟨1, "tag", [1], [5], ""⟩, ⟨2, "more", [5], [], "boom"⟩]⟩

/-- A decoded document whose second step has a name the registry does not know. -/
def unboundDoc : Decoded :=
  ⟨"recipe/v1", "example", [⟨"step/v1", "pass"⟩, ⟨"step/v1", "missing"⟩], none⟩

/-- The Recipe `New` builds from the document of the tests when seeded with the
State object at position 0, its own State being the object at position 1. -/
def resumed : RecipeRef :=
  ⟨"recipe/v1", "test recipe", [passStep, tagStep], some 0, some 1⟩

/-- A Recipe with the single step `tag`, no previous State, its own State being
the object at position 0. -/
def twice : RecipeRef := ⟨"recipe/v1", "example", [tagStep], none, some 0⟩

end Example

end Doit

namespace Doit

/-! ## The loop of `Cook` as a recursion on the remaining steps -/

theorem indexStep_natCast (steps : List Step) (k : Nat) :
    indexStep steps (k : Int) = steps[k]? := by
  simp [indexStep]

theorem cookLoop_eq_runSteps (steps : List Step) :
    ∀ (fuel k : Nat) (output : Reader) (st : State) (calls : List Call),
      steps.length ≤ fuel + k →
      cookLoop steps (fuel + 1) (k : Int) output (some st) calls =
        some ⟨(runSteps (steps.drop k) k output).1,
              some ⟨st.Actions ++ (runSteps (steps.drop k) k output).2.1⟩,
              calls ++ (runSteps (steps.drop k) k output).2.2⟩ := by
  intro fuel
  induction fuel with
  | zero =>
    intro k output st calls h
    have hge : ¬ ((k : Int) < (steps.length : Int)) := by omega
    have hdrop : steps.drop k = [] := List.drop_eq_nil_of_le (by omega)
    simp [cookLoop, hge, hdrop, runSteps]
  | succ fuel ih =>
    intro k output st calls h
    by_cases hlt : k < steps.length
    · have hlt2 : (k : Int) < (steps.length : Int) := by exact_mod_cast hlt
      rw [List.drop_eq_getElem_cons hlt]
      rw [cookLoop]
      simp only [hlt2, if_true, indexStep_natCast, List.getElem?_eq_getElem hlt,
        runSteps]
      cases hdup : mustDupReader output with
      | error e => simp
      | ok p =>
        obtain ⟨input, inputText⟩ := p
        simp only []
        cases hdo : (steps[k]).Do input with
        | none => simp
        | some q =>
          obtain ⟨out, err⟩ := q
          cases err with
          | some e => simp [appendAction]
          | none =>
            simp only []
            cases hdup2 : mustDupReader out with
            | error e => simp
            | ok p2 =>
              obtain ⟨output1, outputText⟩ := p2
              simp only [appendAction]
              have hcast : ((k : Int) + 1) = ((k + 1 : Nat) : Int) := by push_cast; rfl
              rw [hcast, ih (k + 1) output1 _ _ (by omega)]
              simp
    · have hge : ¬ ((k : Int) < (steps.length : Int)) := by omega
      have hdrop : steps.drop k = [] := List.drop_eq_nil_of_le (by omega)
      simp [cookLoop, hge, hdrop, runSteps]

/-- The loop ends within `len(steps) - stepIdx + 1` iterations, whatever the state
pointer is; from a negative index it panics at once. -/
theorem cookLoop_returns (steps : List Step) :
    ∀ (fuel : Nat) (k : Int) (output : Reader) (st : Option State) (calls : List Call),
      (steps.length : Int) - k ≤ fuel ∨ k < 0 →
      ∃ res, cookLoop steps (fuel + 1) k output st calls = some res := by
  intro fuel
  induction fuel with
  | zero =>
    intro k output st calls h
    rw [cookLoop]
    by_cases hlt : k < (steps.length : Int)
    · have hneg : k < 0 := by omega
      simp [hlt, indexStep, hneg]
    · simp [hlt]
  | succ fuel ih =>
    intro k output st calls h
    rw [cookLoop]
    by_cases hlt : k < (steps.length : Int)
    · simp only [hlt, if_true]
      cases hidx : indexStep steps k with
      | none => exact ⟨_, rfl⟩
      | some step =>
        have hk : ¬ k < 0 := by
          intro hneg
          simp [indexStep, hneg] at hidx
        simp only []
        cases hdup : mustDupReader output with
        | error e => exact ⟨_, rfl⟩
        | ok p =>
          obtain ⟨input, inputText⟩ := p
          simp only []
          cases hdo : step.Do input with
          | none => exact ⟨_, rfl⟩
          | some q =>
            obtain ⟨out, err⟩ := q
            cases err with
            | some e =>
              simp only []
              cases appendAction st _ <;> exact ⟨_, rfl⟩
            | none =>
              simp only []
              cases hdup2 : mustDupReader out with
              | error e => exact ⟨_, rfl⟩
              | ok p2 =>
                obtain ⟨output1, outputText⟩ := p2
                simp only []
                cases happ : appendAction st _ with
                | none => exact ⟨_, rfl⟩
                | some st1 => exact ih (k + 1) output1 (some st1) _ (by omega)
    · simp [hlt]

/-- Every call of `Cook` returns or panics: the bound on the loop is never reached. -/
theorem Cook_returns (r : Recipe) (input : Reader) : ∃ res, Cook r input = some res := by
  unfold Cook
  cases hres : resumePoint r.prevState input with
  | none => exact ⟨_, rfl⟩
  | some p =>
    obtain ⟨k, output⟩ := p
    simp only []
    by_cases hk : k < 0
    · exact cookLoop_returns r.Steps r.Steps.length k output r.state [] (Or.inr hk)
    · exact cookLoop_returns r.Steps r.Steps.length k output r.state [] (Or.inl (by omega))

/-! ## The resume point -/

theorem scanActions_passing (pre rest : List Action) :
    ∀ (p s o : Int), (∀ b ∈ pre, b.Err = "") →
      scanActions (pre ++ rest) p s o =
        scanActions rest (p + pre.length) s (if pre = [] then o else p + pre.length - 1) := by
  induction pre with
  | nil => intro p s o _; simp
  | cons b pre ih =>
    intro p s o h
    have hb : b.Err = "" := h b (List.mem_cons_self _ _)
    have hpre : ∀ c ∈ pre, c.Err = "" := fun c hc => h c (List.mem_cons_of_mem _ hc)
    rw [List.cons_append, scanActions]
    simp only [hb, ne_eq, not_true_eq_false, if_false]
    rw [ih (p + 1) s p hpre]
    have h1 : p + 1 + (pre.length : Int) = p + ((b :: pre).length : Int) := by
      simp only [List.length_cons]; push_cast; ring
    rw [h1]
    congr 1
    by_cases hnil : pre = []
    · subst hnil; simp
    · simp only [hnil, if_false, List.length_cons]
      simp only [reduceCtorEq, if_false]

theorem indexAction_last (pre rest : List Action) (h : pre ≠ []) :
    indexAction (pre ++ rest) ((pre.length : Int) - 1) = pre.getLast? := by
  have hpos : 0 < pre.length := List.length_pos.mpr h
  have hnn : ¬ ((pre.length : Int) - 1 < 0) := by omega
  have htn : ((pre.length : Int) - 1).toNat = pre.length - 1 := by omega
  simp only [indexAction, hnn, if_false, htn]
  rw [List.getElem?_append_left (by omega), List.getLast?_eq_getElem?]

/-- The stream `Cook` carries into the loop: the recorded output of the last of
the given (passing) Actions, and the input stream when there is none. -/
theorem resumePoint_failed (pre post : List Action) (a : Action) (input : Reader)
    (hpre : ∀ b ∈ pre, b.Err = "") (ha : a.Err ≠ "") :
    resumePoint (some ⟨pre ++ a :: post⟩) input =
      some (a.StepIndex,
        match pre.getLast? with
        | some b => bytesNewReader b.Output
        | none => input) := by
  simp only [resumePoint]
  rw [scanActions_passing pre (a :: post) 0 0 (-1) hpre]
  simp only [scanActions, ha, ne_eq, not_false_eq_true, if_true]
  by_cases hnil : pre = []
  · subst hnil; simp
  · have hpos : 0 < pre.length := List.length_pos.mpr hnil
    have hge : (0 : Int) + (pre.length : Int) - 1 ≥ 0 := by omega
    simp only [hnil, if_false, hge, if_true]
    have h0 : (0 : Int) + (pre.length : Int) - 1 = (pre.length : Int) - 1 := by ring
    rw [h0, indexAction_last pre (a :: post) hnil]
    obtain ⟨b, hb⟩ : ∃ b, pre.getLast? = some b := by
      cases hl : pre.getLast? with
      | none => exact absurd (List.getLast?_eq_none_iff.mp hl) hnil
      | some b => exact ⟨b, rfl⟩
    simp [hb]

theorem resumePoint_passing (acts : List Action) (input : Reader)
    (hall : ∀ b ∈ acts, b.Err = "") :
    resumePoint (some ⟨acts⟩) input =
      some (0,
        match acts.getLast? with
        | some b => bytesNewReader b.Output
        | none => input) := by
  simp only [resumePoint]
  have h := scanActions_passing acts [] 0 0 (-1) hall
  rw [List.append_nil] at h
  rw [h]
  simp only [scanActions]
  by_cases hnil : acts = []
  · subst hnil; simp
  · have hpos : 0 < acts.length := List.length_pos.mpr hnil
    have hge : (0 : Int) + (acts.length : Int) - 1 ≥ 0 := by omega
    simp only [hnil, if_false, hge, if_true]
    have h0 : (0 : Int) + (acts.length : Int) - 1 = (acts.length : Int) - 1 := by ring
    have hl := indexAction_last acts [] hnil
    rw [List.append_nil] at hl
    rw [h0, hl]
    obtain ⟨b, hb⟩ : ∃ b, acts.getLast? = some b := by
      cases hl : acts.getLast? with
      | none => exact absurd (List.getLast?_eq_none_iff.mp hl) hnil
      | some b => exact ⟨b, rfl⟩
    simp [hb]

/-! ## Facts about one run of the loop -/

theorem Cook_eq_runSteps (r : Recipe) (st : State) (input output : Reader) (k : Nat)
    (hst : r.state = some st)
    (hres : resumePoint r.prevState input = some ((k : Int), output)) :
    Cook r input =
      some ⟨(runSteps (r.Steps.drop k) k output).1,
            some ⟨st.Actions ++ (runSteps (r.Steps.drop k) k output).2.1⟩,
            (runSteps (r.Steps.drop k) k output).2.2⟩ := by
  simp only [Cook, hres, hst]
  rw [cookLoop_eq_runSteps r.Steps r.Steps.length k output st [] (by omega)]
  simp

theorem mustDupReader_bytes (x : Bytes) :
    mustDupReader (bytesNewReader x) = .ok (bytesNewReader x, x) := rfl

theorem mustDupReader_ok (r out : Reader) (text : Bytes)
    (h : mustDupReader r = .ok (out, text)) :
    out = bytesNewReader text ∧ ioReadAll r = (text, none) := by
  obtain ⟨d, f⟩ := r
  cases f with
  | none =>
    simp only [mustDupReader, ioReadAll, Except.ok.injEq, Prod.mk.injEq] at h
    obtain ⟨h1, h2⟩ := h
    subst h2
    exact ⟨h1.symm, rfl⟩
  | some e => simp [mustDupReader, ioReadAll] at h

theorem Step.returns_eq_some (s : Step) (x y : Bytes) (h : s.returns x = some y) :
    ∃ out, s.Do (bytesNewReader x) = some (out, none) ∧
      mustDupReader out = .ok (bytesNewReader y, y) := by
  unfold Step.returns at h
  cases hdo : s.Do (bytesNewReader x) with
  | none => simp [hdo] at h
  | some q =>
    obtain ⟨out, err⟩ := q
    cases err with
    | some e => simp [hdo] at h
    | none =>
      refine ⟨out, rfl, ?_⟩
      obtain ⟨d, f⟩ := out
      cases f with
      | none =>
        simp only [hdo, ioReadAll, Option.some.injEq] at h
        subst h
        rfl
      | some e => simp [hdo, ioReadAll] at h

theorem Step.failsWith_eq_some (s : Step) (x : Bytes) (e : GoError)
    (h : s.failsWith x = some e) :
    ∃ out, s.Do (bytesNewReader x) = some (out, some e) := by
  unfold Step.failsWith at h
  cases hdo : s.Do (bytesNewReader x) with
  | none => simp [hdo] at h
  | some q =>
    obtain ⟨out, err⟩ := q
    cases err with
    | none => simp [hdo] at h
    | some e1 =>
      simp only [hdo, Option.some.injEq] at h
      subst h
      exact ⟨out, rfl⟩

/-- The calls of a run are to consecutive step indices, starting where the run starts. -/
theorem runSteps_calls_index (l : List Step) :
    ∀ (k : Int) (output : Reader) (i : Nat) (c : Call),
      (runSteps l k output).2.2[i]? = some c → c.stepIdx = k + i ∧ i < l.length := by
  induction l with
  | nil => intro k output i c h; simp [runSteps] at h
  | cons s rest ih =>
    intro k output i c h
    rw [runSteps] at h
    cases hdup : mustDupReader output with
    | error e => simp [hdup] at h
    | ok p =>
      obtain ⟨input, inputText⟩ := p
      simp only [hdup] at h
      have hone : ∀ (cs : List Call), cs = [⟨k, inputText⟩] → cs[i]? = some c →
          c.stepIdx = k + i ∧ i < (s :: rest).length := by
        intro cs hcs hget
        subst hcs
        cases i with
        | zero =>
          simp only [List.getElem?_cons_zero, Option.some.injEq] at hget
          subst hget
          simp
        | succ j => simp at hget
      cases hdo : s.Do input with
      | none =>
        simp only [hdo] at h
        exact hone _ rfl h
      | some q =>
        obtain ⟨out, err⟩ := q
        cases err with
        | some e =>
          simp only [hdo] at h
          exact hone _ rfl h
        | none =>
          simp only [hdo] at h
          cases hdup2 : mustDupReader out with
          | error e =>
            simp only [hdup2] at h
            exact hone _ rfl h
          | ok p2 =>
            obtain ⟨output1, outputText⟩ := p2
            simp only [hdup2] at h
            cases i with
            | zero =>
              simp only [List.getElem?_cons_zero, Option.some.injEq] at h
              subst h
              simp
            | succ j =>
              simp only [List.getElem?_cons_succ] at h
              obtain ⟨h1, h2⟩ := ih (k + 1) output1 j c h
              refine ⟨?_, by simp only [List.length_cons]; omega⟩
              rw [h1]
              push_cast
              ring

theorem pipeline_append (l1 l2 : List Step) :
    ∀ (x : Bytes), pipeline (l1 ++ l2) x = (pipeline l1 x).bind (pipeline l2) := by
  induction l1 with
  | nil => intro x; simp [pipeline]
  | cons s rest ih =>
    intro x
    rw [List.cons_append, pipeline, pipeline]
    cases hs : s.returns x with
    | none => simp
    | some y => simp only []; exact ih y

theorem pipeline_take_succ (l : List Step) (i : Nat) (s : Step) (x xi : Bytes)
    (hs : l[i]? = some s) (hx : pipeline (l.take i) x = some xi) :
    pipeline (l.take (i + 1)) x = s.returns xi := by
  have hlt : i < l.length := by
    by_contra hc
    rw [List.getElem?_eq_none (by omega)] at hs
    cases hs
  have hsi : l[i] = s := by
    rw [List.getElem?_eq_getElem hlt] at hs
    exact Option.some.inj hs
  rw [List.take_succ, List.getElem?_eq_getElem hlt, pipeline_append, hx, hsi]
  show pipeline [s] xi = s.returns xi
  simp only [pipeline]
  cases s.returns xi <;> rfl

/-- A run over steps that all succeed: one call per step, each on what the steps
before it made of the input. -/
theorem runSteps_pipeline (l : List Step) :
    ∀ (k : Int) (x y : Bytes), pipeline l x = some y →
      (runSteps l k (bytesNewReader x)).1 = .ok (bytesNewReader y) ∧
      (runSteps l k (bytesNewReader x)).2.2.length = l.length ∧
      ∀ i, i < l.length → ∃ xi, pipeline (l.take i) x = some xi ∧
        (runSteps l k (bytesNewReader x)).2.2[i]? = some ⟨k + i, xi⟩ := by
  induction l with
  | nil =>
    intro k x y h
    simp only [pipeline, Option.some.injEq] at h
    subst h
    simp [runSteps]
  | cons s rest ih =>
    intro k x y h
    rw [pipeline] at h
    cases hs : s.returns x with
    | none => simp [hs] at h
    | some x1 =>
      simp only [hs] at h
      obtain ⟨out, hdo, hdup⟩ := Step.returns_eq_some s x x1 hs
      obtain ⟨ih1, ih2, ih3⟩ := ih (k + 1) x1 y h
      rw [runSteps]
      simp only [mustDupReader_bytes, hdo, hdup]
      refine ⟨ih1, by simp [ih2], ?_⟩
      intro i hi
      cases i with
      | zero => exact ⟨x, by simp [pipeline], by simp⟩
      | succ j =>
        obtain ⟨xj, hxj, hcj⟩ := ih3 j (by simpa using hi)
        refine ⟨xj, by simp [pipeline, hs, hxj], ?_⟩
        simp only [List.getElem?_cons_succ, hcj, Option.some.injEq, Call.mk.injEq, and_true]
        push_cast
        ring

theorem resumePoint_none (input : Reader) : resumePoint none input = some (((0 : Nat) : Int), input) := rfl

/-- C1. A Recipe with no previous State whose steps all succeed on the bytes they
are given: `Cook` calls each step exactly once, in declared order (call `i` is the
call of step `i`), step `i + 1` receives exactly the bytes step `i` returned, and
`Cook` returns, without error, `s_{n-1}(... s_1(s_0 x) ...)` (the input itself
when there are no steps). -/
theorem Cook_runs_every_step_in_order (r : Recipe) (st : State) (x y : Bytes)
    (hprev : r.prevState = none) (hst : r.state = some st)
    (hsteps : pipeline r.Steps x = some y) :
    ∃ res, Cook r (bytesNewReader x) = some res ∧
      res.outcome = .ok (bytesNewReader y) ∧
      res.calls.length = r.Steps.length ∧
      (∀ i, i < r.Steps.length → ∃ xi, pipeline (r.Steps.take i) x = some xi ∧
        res.calls[i]? = some ⟨(i : Int), xi⟩) ∧
      (∀ i s c d, r.Steps[i]? = some s → res.calls[i]? = some c →
        res.calls[i + 1]? = some d → s.returns c.input = some d.input) := by
  have hres : resumePoint r.prevState (bytesNewReader x) =
      some (((0 : Nat) : Int), bytesNewReader x) := by rw [hprev]; rfl
  obtain ⟨h1, h2, h3⟩ := runSteps_pipeline r.Steps ((0 : Nat) : Int) x y hsteps
  refine ⟨_, Cook_eq_runSteps r st _ _ 0 hst hres, ?_, ?_, ?_, ?_⟩
  · simpa using h1
  · simpa using h2
  · intro i hi
    obtain ⟨xi, hxi, hci⟩ := h3 i hi
    exact ⟨xi, hxi, by simpa using hci⟩
  · intro i s c d hs hc hd
    have hi : i < r.Steps.length := by
      by_contra hcon
      rw [List.getElem?_eq_none (by omega)] at hs
      cases hs
    have hi1 : i + 1 < r.Steps.length := by
      by_contra hcon
      have hlen : (runSteps r.Steps ((0 : Nat) : Int) (bytesNewReader x)).2.2.length ≤ i + 1 := by
        rw [h2]; omega
      simp only [List.drop_zero] at hd
      rw [List.getElem?_eq_none hlen] at hd
      cases hd
    obtain ⟨xi, hxi, hci⟩ := h3 i hi
    obtain ⟨xj, hxj, hcj⟩ := h3 (i + 1) hi1
    simp only [List.drop_zero] at hc hd
    rw [hci] at hc
    rw [hcj] at hd
    cases hc
    cases hd
    rw [← pipeline_take_succ r.Steps i s x xi hs hxi, hxj]

/-- C1, at a two-step Recipe: a pass-through step followed by one that tags. -/
theorem Cook_runs_every_step_in_order_witness :
    ∃ res, Cook (Example.fresh [Example.passStep, Example.tagStep] none) (bytesNewReader [1, 2])
        = some res ∧
      res.outcome = .ok (bytesNewReader [7, 1, 2]) ∧
      res.calls.length = 2 ∧
      (∀ i, i < 2 → ∃ xi,
        pipeline ([Example.passStep, Example.tagStep].take i) [1, 2] = some xi ∧
        res.calls[i]? = some ⟨(i : Int), xi⟩) ∧
      (∀ i s c d, [Example.passStep, Example.tagStep][i]? = some s → res.calls[i]? = some c →
        res.calls[i + 1]? = some d → s.returns c.input = some d.input) :=
  Cook_runs_every_step_in_order (Example.fresh [Example.passStep, Example.tagStep] none)
    ⟨[]⟩ [1, 2] [7, 1, 2] rfl rfl (by decide)

/-! ## Fail-fast -/

/-- Every call of `Cook` on a Recipe whose state is allocated either panics on an
index before any step is called, or is a run of the loop from a resume point. -/
theorem Cook_shape (r : Recipe) (st : State) (input : Reader) (hst : r.state = some st) :
    Cook r input = some ⟨.panic .indexOutOfRange, some st, []⟩ ∨
    ∃ (k : Nat) (output : Reader),
      resumePoint r.prevState input = some ((k : Int), output) ∧
      Cook r input =
        some ⟨(runSteps (r.Steps.drop k) k output).1,
              some ⟨st.Actions ++ (runSteps (r.Steps.drop k) k output).2.1⟩,
              (runSteps (r.Steps.drop k) k output).2.2⟩ := by
  cases hres : resumePoint r.prevState input with
  | none => left; simp [Cook, hres, hst]
  | some p =>
    obtain ⟨k, output⟩ := p
    by_cases hk : k < 0
    · left
      have hlt : k < (r.Steps.length : Int) := by omega
      simp [Cook, hres, hst, cookLoop, hlt, indexStep, hk]
    · right
      have hk2 : ((k.toNat : Nat) : Int) = k := Int.toNat_of_nonneg (by omega)
      refine ⟨k.toNat, output, by rw [hk2], ?_⟩
      exact Cook_eq_runSteps r st input output k.toNat hst (by rw [hres, hk2])

/-- In a run of the loop, a call on which the step returns an error is the last
call, and its error is the outcome. -/
theorem runSteps_fail_fast (l : List Step) :
    ∀ (k : Int) (output : Reader) (i : Nat) (c : Call) (s : Step) (e : GoError),
      (runSteps l k output).2.2[i]? = some c → l[i]? = some s →
      s.failsWith c.input = some e →
      (runSteps l k output).1 = .error e ∧ (runSteps l k output).2.2.length = i + 1 := by
  induction l with
  | nil => intro k output i c s e h; simp [runSteps] at h
  | cons s0 rest ih =>
    intro k output i c s e h hs hfail
    rw [runSteps] at h ⊢
    cases hdup : mustDupReader output with
    | error e1 => simp [hdup] at h
    | ok p =>
      obtain ⟨input, inputText⟩ := p
      obtain ⟨hin, -⟩ := mustDupReader_ok output input inputText hdup
      subst hin
      simp only [hdup] at h ⊢
      cases i with
      | zero =>
        simp only [List.getElem?_cons_zero, Option.some.injEq] at hs
        subst hs
        obtain ⟨out1, hdo1⟩ := Step.failsWith_eq_some s0 c.input e hfail
        cases hdo : s0.Do (bytesNewReader inputText) with
        | none =>
          simp only [hdo, List.getElem?_cons_zero, Option.some.injEq] at h
          subst h
          rw [hdo] at hdo1
          cases hdo1
        | some q =>
          obtain ⟨out, err⟩ := q
          cases err with
          | some e2 =>
            simp only [hdo, List.getElem?_cons_zero, Option.some.injEq] at h
            subst h
            rw [hdo] at hdo1
            cases hdo1
            simp
          | none =>
            simp only [hdo] at h
            cases hdup2 : mustDupReader out with
            | error e3 =>
              simp only [hdup2, List.getElem?_cons_zero, Option.some.injEq] at h
              subst h
              rw [hdo] at hdo1
              cases hdo1
            | ok p2 =>
              simp only [hdup2, List.getElem?_cons_zero, Option.some.injEq] at h
              subst h
              rw [hdo] at hdo1
              cases hdo1
      | succ j =>
        simp only [List.getElem?_cons_succ] at hs
        cases hdo : s0.Do (bytesNewReader inputText) with
        | none => simp [hdo] at h
        | some q =>
          obtain ⟨out, err⟩ := q
          cases err with
          | some e2 => simp [hdo] at h
          | none =>
            simp only [hdo] at h ⊢
            cases hdup2 : mustDupReader out with
            | error e3 => simp [hdup2] at h
            | ok p2 =>
              obtain ⟨output1, outputText⟩ := p2
              simp only [hdup2, List.getElem?_cons_succ] at h ⊢
              obtain ⟨h1, h2⟩ := ih (k + 1) output1 j c s e h hs hfail
              exact ⟨h1, by simp [h2]⟩

/-- C2. Fail-fast: when a step that `Cook` calls returns an error `e`, `Cook`
returns exactly `e` (no output stream) and calls no step of greater index. -/
theorem Cook_fail_fast (r : Recipe) (st : State) (input : Reader) (hst : r.state = some st) :
    ∃ res, Cook r input = some res ∧
      ∀ (c : Call) (s : Step) (e : GoError), c ∈ res.calls →
        indexStep r.Steps c.stepIdx = some s → s.failsWith c.input = some e →
        res.outcome = .error e ∧ ∀ d ∈ res.calls, d.stepIdx ≤ c.stepIdx := by
  rcases Cook_shape r st input hst with h | ⟨k, output, -, h⟩
  · exact ⟨_, h, by intro c s e hc; simp at hc⟩
  · refine ⟨_, h, ?_⟩
    intro c s e hc hs hfail
    simp only at hc ⊢
    obtain ⟨i, hi, hci⟩ := List.getElem_of_mem hc
    have hget : (runSteps (r.Steps.drop k) k output).2.2[i]? = some c := by
      rw [List.getElem?_eq_getElem hi, hci]
    obtain ⟨hidx, -⟩ := runSteps_calls_index _ _ _ _ _ hget
    have hs2 : (r.Steps.drop k)[i]? = some s := by
      rw [hidx] at hs
      have hcast : ((k : Int) + (i : Int)) = ((k + i : Nat) : Int) := by push_cast; rfl
      rw [hcast, indexStep_natCast] at hs
      rw [List.getElem?_drop]
      exact hs
    obtain ⟨h1, h2⟩ := runSteps_fail_fast _ _ _ _ _ _ _ hget hs2 hfail
    refine ⟨h1, ?_⟩
    intro d hd
    obtain ⟨j, hj, hdj⟩ := List.getElem_of_mem hd
    have hgetd : (runSteps (r.Steps.drop k) k output).2.2[j]? = some d := by
      rw [List.getElem?_eq_getElem hj, hdj]
    obtain ⟨hjdx, -⟩ := runSteps_calls_index _ _ _ _ _ hgetd
    rw [hidx, hjdx]
    have : j < i + 1 := by rw [← h2]; exact hj
    omega

/-- C2, at a three-step Recipe whose second step fails. -/
theorem Cook_fail_fast_witness :
    ∃ res, Cook (Example.fresh [Example.passStep, Example.failStep Example.boom, Example.tagStep]
        none) (bytesNewReader [1, 2]) = some res ∧
      res.outcome = .error Example.boom ∧ ∀ d ∈ res.calls, d.stepIdx ≤ 1 := by
  obtain ⟨res, hres, h⟩ := Cook_fail_fast
    (Example.fresh [Example.passStep, Example.failStep Example.boom, Example.tagStep] none)
    ⟨[]⟩ (bytesNewReader [1, 2]) rfl
  have heval : Cook (Example.fresh [Example.passStep, Example.failStep Example.boom,
      Example.tagStep] none) (bytesNewReader [1, 2]) =
      some ⟨.error Example.boom,
        some ⟨[⟨0, "pass", [1, 2], [1, 2], ""⟩, ⟨1, "fail", [1, 2], [], "boom"⟩]⟩,
        [⟨0, [1, 2]⟩, ⟨1, [1, 2]⟩]⟩ := by decide
  rw [heval] at hres
  cases hres
  exact ⟨_, heval, h ⟨1, [1, 2]⟩ (Example.failStep Example.boom) Example.boom
    (by decide) rfl rfl⟩

/-! ## What an Action records -/

/-- In a run of the loop the `i`-th Action appended records the `i`-th call. -/
theorem runSteps_actions_record (l : List Step) :
    ∀ (k : Int) (output : Reader) (i : Nat) (a : Action),
      (runSteps l k output).2.1[i]? = some a →
      ∃ (c : Call) (s : Step) (out : Reader) (err : Option GoError),
        (runSteps l k output).2.2[i]? = some c ∧ l[i]? = some s ∧
        s.Do (bytesNewReader c.input) = some (out, err) ∧
        a.StepIndex = c.stepIdx ∧ a.StepName = s.Name ∧ a.Input = c.input ∧
        (err = none → ioReadAll out = (a.Output, none) ∧ a.Err = "") ∧
        (∀ e, err = some e → a.Output = [] ∧ a.Err = e.Error) := by
  induction l with
  | nil => intro k output i a h; simp [runSteps] at h
  | cons s0 rest ih =>
    intro k output i a h
    rw [runSteps] at h ⊢
    cases hdup : mustDupReader output with
    | error e1 => simp [hdup] at h
    | ok p =>
      obtain ⟨input, inputText⟩ := p
      obtain ⟨hin, -⟩ := mustDupReader_ok output input inputText hdup
      subst hin
      simp only [hdup] at h ⊢
      cases hdo : s0.Do (bytesNewReader inputText) with
      | none => simp [hdo] at h
      | some q =>
        obtain ⟨out, err⟩ := q
        cases err with
        | some e2 =>
          simp only [hdo] at h ⊢
          cases i with
          | zero =>
            simp only [List.getElem?_cons_zero, Option.some.injEq] at h
            subst h
            refine ⟨⟨k, inputText⟩, s0, out, some e2, by simp, by simp, hdo, rfl, rfl, rfl,
              ?_, ?_⟩
            · intro hc
              cases hc
            · intro e he
              cases he
              exact ⟨rfl, rfl⟩
          | succ j => simp at h
        | none =>
          simp only [hdo] at h ⊢
          cases hdup2 : mustDupReader out with
          | error e3 => simp [hdup2] at h
          | ok p2 =>
            obtain ⟨output1, outputText⟩ := p2
            obtain ⟨-, hread⟩ := mustDupReader_ok out output1 outputText hdup2
            simp only [hdup2] at h ⊢
            cases i with
            | zero =>
              simp only [List.getElem?_cons_zero, Option.some.injEq] at h
              subst h
              refine ⟨⟨k, inputText⟩, s0, out, none, by simp, by simp, hdo, rfl, rfl, rfl,
                ?_, ?_⟩
              · intro _
                exact ⟨hread, rfl⟩
              · intro e he
                cases he
            | succ j =>
              simp only [List.getElem?_cons_succ] at h ⊢
              exact ih (k + 1) output1 j a h

/-- C9. Every Action `Cook` appends records one call: its `step_index` is the
position in the Recipe's step list of the step called, its `step_name` that
step's name, its `input` exactly the bytes the step was given, and its `output`
exactly the bytes the step returned when it succeeded and empty when it failed. -/
theorem Cook_action_records_call (r : Recipe) (st : State) (input : Reader)
    (hst : r.state = some st) :
    ∃ res new, Cook r input = some res ∧ res.state = some ⟨st.Actions ++ new⟩ ∧
      ∀ (i : Nat) (a : Action), new[i]? = some a →
        ∃ (c : Call) (s : Step) (out : Reader) (err : Option GoError),
          res.calls[i]? = some c ∧ indexStep r.Steps c.stepIdx = some s ∧
          s.Do (bytesNewReader c.input) = some (out, err) ∧
          a.StepIndex = c.stepIdx ∧ a.StepName = s.Name ∧ a.Input = c.input ∧
          (err = none → ioReadAll out = (a.Output, none)) ∧
          (err ≠ none → a.Output = []) := by
  rcases Cook_shape r st input hst with h | ⟨k, output, -, h⟩
  · exact ⟨_, [], h, by simp, by intro i a hi; simp at hi⟩
  · refine ⟨_, _, h, rfl, ?_⟩
    intro i a hi
    obtain ⟨c, s, out, err, hc, hs, hdo, h1, h2, h3, h4, h5⟩ :=
      runSteps_actions_record _ _ _ _ _ hi
    obtain ⟨hidx, -⟩ := runSteps_calls_index _ _ _ _ _ hc
    refine ⟨c, s, out, err, hc, ?_, hdo, h1, h2, h3, fun he => (h4 he).1, ?_⟩
    · have hcast : ((k : Int) + (i : Int)) = ((k + i : Nat) : Int) := by push_cast; rfl
      rw [hidx, hcast, indexStep_natCast]
      rw [List.getElem?_drop] at hs
      exact hs
    · intro he
      cases err with
      | none => exact absurd rfl he
      | some e => exact (h5 e rfl).1

/-- C9, at a run with one successful and one failed step. -/
theorem Cook_action_records_call_witness :
    ∃ res new, Cook (Example.fresh [Example.tagStep, Example.failStep Example.boom] none)
        (bytesNewReader [3]) = some res ∧
      res.state = some ⟨[] ++ new⟩ ∧
      ∀ (i : Nat) (a : Action), new[i]? = some a →
        ∃ (c : Call) (s : Step) (out : Reader) (err : Option GoError),
          res.calls[i]? = some c ∧
          indexStep [Example.tagStep, Example.failStep Example.boom] c.stepIdx = some s ∧
          s.Do (bytesNewReader c.input) = some (out, err) ∧
          a.StepIndex = c.stepIdx ∧ a.StepName = s.Name ∧ a.Input = c.input ∧
          (err = none → ioReadAll out = (a.Output, none)) ∧
          (err ≠ none → a.Output = []) :=
  Cook_action_records_call (Example.fresh [Example.tagStep, Example.failStep Example.boom] none)
    ⟨[]⟩ (bytesNewReader [3]) rfl

/-! ## Where a resumed run starts -/

theorem failed_or_all_passing (acts : List Action) :
    (∀ b ∈ acts, b.Err = "") ∨
    ∃ pre a post, acts = pre ++ a :: post ∧ (∀ b ∈ pre, b.Err = "") ∧ a.Err ≠ "" := by
  induction acts with
  | nil => left; simp
  | cons b rest ih =>
    by_cases hb : b.Err = ""
    · rcases ih with h | ⟨pre, a, post, h1, h2, h3⟩
      · left
        intro c hc
        rcases List.mem_cons.mp hc with h0 | h0
        · rw [h0]; exact hb
        · exact h c h0
      · right
        refine ⟨b :: pre, a, post, by rw [h1]; rfl, ?_, h3⟩
        intro c hc
        rcases List.mem_cons.mp hc with h0 | h0
        · rw [h0]; exact hb
        · exact h2 c h0
    · right
      exact ⟨[], b, rest, rfl, by simp, hb⟩

/-- C6. Resume-point computation.  Let the previous State hold the Actions
`pre ++ a :: post`, `a` being the first one with a non-empty error: the loop of
`Cook` starts at step index `a.step_index` with the recorded output of the last
Action of `pre`, and with the input of `Cook` when `pre` is empty; the Actions
`post` have no influence.  When no Action has an error the loop starts at index 0
with the recorded output of the last Action, and with the input of `Cook` when the
State is empty.  Every State is of one of these two forms. -/
theorem Cook_resume_point (r : Recipe) (input : Reader) :
    (∀ pre a post, r.prevState = some ⟨pre ++ a :: post⟩ →
      (∀ b ∈ pre, b.Err = "") → a.Err ≠ "" →
      Cook r input =
        cookLoop r.Steps (r.Steps.length + 1) a.StepIndex
          (match pre.getLast? with
           | some b => bytesNewReader b.Output
           | none => input) r.state []) ∧
    (∀ acts, r.prevState = some ⟨acts⟩ → (∀ b ∈ acts, b.Err = "") →
      Cook r input =
        cookLoop r.Steps (r.Steps.length + 1) 0
          (match acts.getLast? with
           | some b => bytesNewReader b.Output
           | none => input) r.state []) ∧
    (∀ pre a post1 post2, (∀ b ∈ pre, b.Err = "") → a.Err ≠ "" →
      Cook { r with prevState := some ⟨pre ++ a :: post1⟩ } input =
        Cook { r with prevState := some ⟨pre ++ a :: post2⟩ } input) ∧
    (∀ acts : List Action, (∀ b ∈ acts, b.Err = "") ∨
      ∃ pre a post, acts = pre ++ a :: post ∧ (∀ b ∈ pre, b.Err = "") ∧ a.Err ≠ "") := by
  refine ⟨?_, ?_, ?_, failed_or_all_passing⟩
  · intro pre a post hprev hpre ha
    simp only [Cook, hprev, resumePoint_failed pre post a input hpre ha]
  · intro acts hprev hall
    simp only [Cook, hprev, resumePoint_passing acts input hall]
  · intro pre a post1 post2 hpre ha
    simp only [Cook, resumePoint_failed pre post1 a input hpre ha,
      resumePoint_failed pre post2 a input hpre ha]

/-- C6, at a State with two passing Actions, a failed one, and one more after it:
the run resumes at the failed Action's step index with the second Action's output. -/
theorem Cook_resume_point_witness :
    Cook (Example.fresh [Example.passStep, Example.passStep, Example.tagStep]
        (some ⟨[⟨0, "pass", [1], [1], ""⟩, ⟨1, "pass", [1], [5], ""⟩,
                ⟨2, "tag", [5], [], "boom"⟩, ⟨0, "pass", [8], [9], ""⟩]⟩))
      (bytesNewReader [4]) =
    cookLoop [Example.passStep, Example.passStep, Example.tagStep] (3 + 1) 2
      (bytesNewReader [5]) (some ⟨[]⟩) [] :=
  (Cook_resume_point
    (Example.fresh [Example.passStep, Example.passStep, Example.tagStep]
      (some ⟨[⟨0, "pass", [1], [1], ""⟩, ⟨1, "pass", [1], [5], ""⟩,
              ⟨2, "tag", [5], [], "boom"⟩, ⟨0, "pass", [8], [9], ""⟩]⟩))
    (bytesNewReader [4])).1
    [⟨0, "pass", [1], [1], ""⟩, ⟨1, "pass", [1], [5], ""⟩] ⟨2, "tag", [5], [], "boom"⟩
    [⟨0, "pass", [8], [9], ""⟩] rfl (by decide) (by decide)

theorem runSteps_head (s : Step) (rest : List Step) (k : Int) (y : Bytes) :
    (runSteps (s :: rest) k (bytesNewReader y)).2.2.head? = some ⟨k, y⟩ := by
  rw [runSteps]
  simp only [mustDupReader_bytes]
  cases hdo : s.Do (bytesNewReader y) with
  | none => rfl
  | some q =>
    obtain ⟨out, err⟩ := q
    cases err with
    | some e => rfl
    | none =>
      simp only []
      cases hdup2 : mustDupReader out with
      | error e => rfl
      | ok p2 => rfl

/-- C4 (amended). A Recipe constructed with a previous State whose last Action
has a non-empty error and step index `k ≥ 0` and whose earlier Actions all have
an empty error: `Cook` calls none of the steps `0..k-1`, and when `k` is the index
of a step the first call is of step `k`, on the recorded output of the Action just
before the failed one, and on the initial input of `Cook` when the failed Action is
the only one in the State. -/
theorem Cook_resumes_at_failed_step (r : Recipe) (st : State) (pre : List Action)
    (a : Action) (x : Bytes)
    (hprev : r.prevState = some ⟨pre ++ [a]⟩) (hpre : ∀ b ∈ pre, b.Err = "")
    (ha : a.Err ≠ "") (hk : 0 ≤ a.StepIndex) (hst : r.state = some st) :
    ∃ res, Cook r (bytesNewReader x) = some res ∧
      (∀ c ∈ res.calls, a.StepIndex ≤ c.stepIdx) ∧
      (a.StepIndex < r.Steps.length →
        res.calls.head? = some ⟨a.StepIndex,
          match pre.getLast? with
          | some b => b.Output
          | none => x⟩) := by
  have hk2 : ((a.StepIndex.toNat : Nat) : Int) = a.StepIndex := Int.toNat_of_nonneg hk
  have hres : resumePoint r.prevState (bytesNewReader x) =
      some (((a.StepIndex.toNat : Nat) : Int),
        bytesNewReader (match pre.getLast? with
          | some b => b.Output
          | none => x)) := by
    rw [hprev, resumePoint_failed pre [] a _ hpre ha, hk2]
    cases pre.getLast? <;> rfl
  refine ⟨_, Cook_eq_runSteps r st _ _ _ hst hres, ?_, ?_⟩
  · intro c hc
    simp only at hc
    obtain ⟨i, hi, hci⟩ := List.getElem_of_mem hc
    obtain ⟨hidx, -⟩ := runSteps_calls_index _ _ _ i c (by rw [List.getElem?_eq_getElem hi, hci])
    rw [hidx, hk2]
    omega
  · intro hlt
    have hlt2 : a.StepIndex.toNat < r.Steps.length := by omega
    simp only
    rw [List.drop_eq_getElem_cons hlt2, runSteps_head, hk2]

/-- C4 (amended), at a State recording a passed step 0 and a failed step 1. -/
theorem Cook_resumes_at_failed_step_witness :
    ∃ res, Cook (Example.fresh [Example.passStep, Example.tagStep]
        (some Example.passedThenFailed)) (bytesNewReader [4]) = some res ∧
      (∀ c ∈ res.calls, (1 : Int) ≤ c.stepIdx) ∧
      ((1 : Int) < (2 : Nat) → res.calls.head? = some ⟨1, [5]⟩) :=
  Cook_resumes_at_failed_step
    (Example.fresh [Example.passStep, Example.tagStep] (some Example.passedThenFailed))
    ⟨[]⟩ [⟨0, "pass", [1], [5], ""⟩] ⟨1, "tag", [5], [], "boom"⟩ [4]
    rfl (by decide) (by decide) (by decide) rfl

/-- C4, as stated, fails.  Steps: tag, then a step that fails.  The first run
fails at step 1; the run resumed from its State fails at step 1 again and leaves a
State holding only that failed Action (step index 1, no earlier Action); the run
resumed from that State calls step 1 on `[1]`, the initial input of `Cook`, though
`k = 1 > 0`: the State records no output of step 0, which was `[7, 1]`. -/
theorem Cook_second_resume_gets_initial_input :
    Cook (Example.fresh [Example.tagStep, Example.failStep Example.boom] none)
        (bytesNewReader [1]) =
      some ⟨.error Example.boom,
        some ⟨[⟨0, "tag", [1], [7, 1], ""⟩, ⟨1, "fail", [7, 1], [], "boom"⟩]⟩,
        [⟨0, [1]⟩, ⟨1, [7, 1]⟩]⟩ ∧
    Cook (Example.fresh [Example.tagStep, Example.failStep Example.boom]
        (some ⟨[⟨0, "tag", [1], [7, 1], ""⟩, ⟨1, "fail", [7, 1], [], "boom"⟩]⟩))
        (bytesNewReader [1]) =
      some ⟨.error Example.boom, some ⟨[⟨1, "fail", [7, 1], [], "boom"⟩]⟩, [⟨1, [7, 1]⟩]⟩ ∧
    Cook (Example.fresh [Example.tagStep, Example.failStep Example.boom]
        (some ⟨[⟨1, "fail", [7, 1], [], "boom"⟩]⟩)) (bytesNewReader [1]) =
      some ⟨.error Example.boom, some ⟨[⟨1, "fail", [1], [], "boom"⟩]⟩, [⟨1, [1]⟩]⟩ ∧
    ¬ ∃ b ∈ [(⟨1, "fail", [7, 1], [], "boom"⟩ : Action)], b.StepIndex = 1 - 1 ∧ b.Output = [1] := by
  refine ⟨by decide, by decide, by decide, by decide⟩

/-! ## A run that fails, and the run resumed from its State -/

/-- A run in which the first `k` steps succeed and step `k` fails with `e`: the
Actions appended are `k` passing ones followed by the failed one, whose error
field is the message of `e`. -/
theorem runSteps_fails (l : List Step) :
    ∀ (j : Int) (x : Bytes) (k : Nat) (y : Bytes) (s : Step) (e : GoError),
      pipeline (l.take k) x = some y → l[k]? = some s → s.failsWith y = some e →
      ∃ pre : List Action,
        (runSteps l j (bytesNewReader x)).1 = .error e ∧
        (runSteps l j (bytesNewReader x)).2.1 = pre ++ [⟨j + k, s.Name, y, [], e.Error⟩] ∧
        pre.length = k ∧ (∀ b ∈ pre, b.Err = "") ∧
        (∀ (i : Nat) (b : Action), pre[i]? = some b → b.StepIndex = j + (i : Int)) ∧
        (match pre.getLast? with
         | some b => b.Output
         | none => x) = y ∧
        (runSteps l j (bytesNewReader x)).2.2.length = k + 1 := by
  induction l with
  | nil => intro j x k y s e _ hs; simp at hs
  | cons s0 rest ih =>
    intro j x k y s e hpipe hs hfail
    cases k with
    | zero =>
      simp only [List.take_zero, pipeline, Option.some.injEq] at hpipe
      subst hpipe
      simp only [List.getElem?_cons_zero, Option.some.injEq] at hs
      subst hs
      obtain ⟨out, hdo⟩ := Step.failsWith_eq_some s0 x e hfail
      refine ⟨[], ?_⟩
      rw [runSteps]
      simp [mustDupReader_bytes, hdo]
    | succ k1 =>
      simp only [List.take_succ_cons, pipeline] at hpipe
      simp only [List.getElem?_cons_succ] at hs
      cases hret : s0.returns x with
      | none => simp [hret] at hpipe
      | some x1 =>
        simp only [hret] at hpipe
        obtain ⟨out, hdo, hdup⟩ := Step.returns_eq_some s0 x x1 hret
        obtain ⟨pre, h1, h2, h3, h4, h5, h6, h7⟩ := ih (j + 1) x1 k1 y s e hpipe hs hfail
        refine ⟨⟨j, s0.Name, x, x1, ""⟩ :: pre, ?_⟩
        rw [runSteps]
        simp only [mustDupReader_bytes, hdo, hdup]
        refine ⟨h1, ?_, by simp [h3], ?_, ?_, ?_, by simp [h7]⟩
        · rw [h2]
          simp only [List.cons_append, List.cons.injEq, true_and, List.append_cancel_left_eq,
            Action.mk.injEq, and_true]
          push_cast
          ring
        · intro b hb
          rcases List.mem_cons.mp hb with h0 | h0
          · rw [h0]
          · exact h4 b h0
        · intro i b hb
          cases i with
          | zero =>
            simp only [List.getElem?_cons_zero, Option.some.injEq] at hb
            subst hb
            simp
          | succ i1 =>
            simp only [List.getElem?_cons_succ] at hb
            rw [h5 i1 b hb]
            push_cast
            ring
        · cases pre with
          | nil => simpa using h6
          | cons b0 pre1 =>
            rw [List.getLast?_cons_cons]
            exact h6

/-- A Recipe with no previous State and an empty log, in which steps `0..k-1`
succeed and step `k` fails with `e`: `Cook` returns `e`, and the State holds `k`
passing Actions with step indices `0..k-1` followed by the Action of step `k`,
whose error field is the message of `e`. -/
theorem Cook_failed_run (r : Recipe) (x y : Bytes) (k : Nat) (s : Step) (e : GoError)
    (hprev : r.prevState = none) (hst : r.state = some ⟨[]⟩)
    (hpipe : pipeline (r.Steps.take k) x = some y) (hs : r.Steps[k]? = some s)
    (hfail : s.failsWith y = some e) :
    ∃ res pre, Cook r (bytesNewReader x) = some res ∧ res.outcome = .error e ∧
      res.state = some ⟨pre ++ [⟨k, s.Name, y, [], e.Error⟩]⟩ ∧
      pre.length = k ∧ (∀ b ∈ pre, b.Err = "") ∧
      (∀ (i : Nat) (b : Action), pre[i]? = some b → b.StepIndex = (i : Int)) ∧
      (match pre.getLast? with
       | some b => b.Output
       | none => x) = y ∧
      res.calls.length = k + 1 := by
  have hres : resumePoint r.prevState (bytesNewReader x) =
      some (((0 : Nat) : Int), bytesNewReader x) := by rw [hprev]; rfl
  obtain ⟨pre, h1, h2, h3, h4, h5, h6, h7⟩ :=
    runSteps_fails r.Steps ((0 : Nat) : Int) x k y s e hpipe hs hfail
  refine ⟨_, pre, Cook_eq_runSteps r ⟨[]⟩ _ _ 0 hst hres, ?_, ?_, h3, h4, ?_, h6, ?_⟩
  · simpa using h1
  · simp only [List.drop_zero, h2, List.nil_append]
    simp
  · intro i b hb
    simpa using h5 i b hb
  · simpa using h7

/-- Resume after a failure whose message is not empty.  A first run with no
previous State has steps `0..k-1` succeed, giving `y`, and step `k` fail with `e`.
Any Recipe built with the State of that run calls no step before `k`, calls step
`k` first, on `y`, and when its steps from `k` on all succeed on `y`, giving `z`,
it calls each of them once, in order, and returns `z` without error. -/
theorem Cook_resume_after_failure (r1 : Recipe) (x y : Bytes) (k : Nat) (s : Step)
    (e : GoError) (hprev : r1.prevState = none) (hst : r1.state = some ⟨[]⟩)
    (hpipe : pipeline (r1.Steps.take k) x = some y) (hs : r1.Steps[k]? = some s)
    (hfail : s.failsWith y = some e) (hmsg : e.Error ≠ "") :
    ∃ res1, Cook r1 (bytesNewReader x) = some res1 ∧ res1.outcome = .error e ∧
      ∀ (r2 : Recipe) (st2 : State), r2.prevState = res1.state → r2.state = some st2 →
        ∃ res2, Cook r2 (bytesNewReader x) = some res2 ∧
          (∀ c ∈ res2.calls, (k : Int) ≤ c.stepIdx) ∧
          (k < r2.Steps.length → res2.calls.head? = some ⟨k, y⟩) ∧
          (∀ z, pipeline (r2.Steps.drop k) y = some z →
            res2.outcome = .ok (bytesNewReader z) ∧
            res2.calls.map Call.stepIdx =
              (List.range (r2.Steps.length - k)).map (fun i : Nat => (k : Int) + (i : Int)) ∧
            pipeline (r1.Steps.take k ++ r2.Steps.drop k) x = some z) := by
  obtain ⟨res1, pre, h1, h2, h3, h4, h5, -, h7, -⟩ :=
    Cook_failed_run r1 x y k s e hprev hst hpipe hs hfail
  refine ⟨res1, h1, h2, ?_⟩
  intro r2 st2 hprev2 hst2
  have hres : resumePoint r2.prevState (bytesNewReader x) =
      some ((k : Int), bytesNewReader y) := by
    rw [hprev2, h3, resumePoint_failed pre [] _ _ h5 hmsg]
    rw [← h7]
    cases pre.getLast? <;> rfl
  refine ⟨_, Cook_eq_runSteps r2 st2 _ _ k hst2 hres, ?_, ?_, ?_⟩
  · intro c hc
    simp only at hc
    obtain ⟨i, hi, hci⟩ := List.getElem_of_mem hc
    obtain ⟨hidx, -⟩ := runSteps_calls_index _ _ _ i c (by rw [List.getElem?_eq_getElem hi, hci])
    rw [hidx]
    omega
  · intro hlt
    simp only
    rw [List.drop_eq_getElem_cons hlt, runSteps_head]
  · intro z hz
    obtain ⟨g1, g2, g3⟩ := runSteps_pipeline (r2.Steps.drop k) (k : Int) y z hz
    refine ⟨g1, ?_, ?_⟩
    · apply List.ext_getElem?
      intro i
      by_cases hi : i < (r2.Steps.drop k).length
      · obtain ⟨xi, -, hci⟩ := g3 i hi
        have hi2 : i < r2.Steps.length - k := by simpa using hi
        simp [List.getElem?_map, hci, List.getElem?_range hi2]
      · have hlen : (runSteps (r2.Steps.drop k) (k : Int) (bytesNewReader y)).2.2.length ≤ i := by
          rw [g2]; omega
        have hi2 : r2.Steps.length - k ≤ i := by simpa using hi
        rw [List.getElem?_eq_none (by simpa using hlen),
          List.getElem?_eq_none (by simpa using hi2)]
    · rw [pipeline_append, hpipe]
      exact hz

/-! ## Failures whose error message is empty, and States without a failure -/

/-- C8 fails on the code: a step that fails with an error whose message is the
empty string (`errors.New("")`) is recorded by an Action whose error field is
empty, as if it had succeeded. -/
theorem Cook_records_silent_failure_as_success :
    (Example.failStep Example.silent).failsWith [1] = some Example.silent ∧
    Cook (Example.fresh [Example.failStep Example.silent] none) (bytesNewReader [1]) =
      some ⟨.error Example.silent, some ⟨[⟨0, "fail", [1], [], ""⟩]⟩, [⟨0, [1]⟩]⟩ := by
  refine ⟨by decide, by decide⟩

/-- C7 fails on the code: step 0 succeeds and step 1 fails with an error whose
message is empty; the State has the two Actions with step indices 0 and 1, but the
error of the last one is empty. -/
theorem Cook_last_action_error_may_be_empty :
    pipeline [Example.passStep] [1, 2] = some [1, 2] ∧
    (Example.failStep Example.silent).failsWith [1, 2] = some Example.silent ∧
    ∃ res st a,
      Cook (Example.fresh [Example.passStep, Example.failStep Example.silent, Example.tagStep]
        none) (bytesNewReader [1, 2]) = some res ∧
      res.outcome = .error Example.silent ∧ res.state = some st ∧
      st.Actions.map Action.StepIndex = [0, 1] ∧
      st.Actions.getLast? = some a ∧ a.Err = "" := by
  refine ⟨by decide, by decide,
    ⟨.error Example.silent,
      some ⟨[⟨0, "pass", [1, 2], [1, 2], ""⟩, ⟨1, "fail", [1, 2], [], ""⟩]⟩,
      [⟨0, [1, 2]⟩, ⟨1, [1, 2]⟩]⟩, _, _, by decide, rfl, rfl, by decide, rfl, rfl⟩

/-- C3 fails on the code: step 1 fails with an error whose message is empty; the
run resumed from the State of that run, with a step 1 that now succeeds, calls
step 0 again, on the empty input, and returns `[7]`, where the uninterrupted run
returns `[7, 1]`. -/
theorem Cook_resume_after_silent_failure_restarts :
    Cook (Example.fresh [Example.tagStep, Example.failStep Example.silent] none)
        (bytesNewReader [1]) =
      some ⟨.error Example.silent,
        some ⟨[⟨0, "tag", [1], [7, 1], ""⟩, ⟨1, "fail", [7, 1], [], ""⟩]⟩,
        [⟨0, [1]⟩, ⟨1, [7, 1]⟩]⟩ ∧
    Cook (Example.fresh [Example.tagStep, Example.passStep]
        (some ⟨[⟨0, "tag", [1], [7, 1], ""⟩, ⟨1, "fail", [7, 1], [], ""⟩]⟩))
        (bytesNewReader [1]) =
      some ⟨.ok (bytesNewReader [7]),
        some ⟨[⟨0, "tag", [], [7], ""⟩, ⟨1, "pass", [7], [7], ""⟩]⟩,
        [⟨0, []⟩, ⟨1, [7]⟩]⟩ ∧
    pipeline [Example.tagStep, Example.passStep] [1] = some [7, 1] := by
  refine ⟨by decide, by decide, by decide⟩

/-- C5 fails on the code: resumed from the State of a run in which both steps
passed, `Cook` calls both steps again, step 0 on the recorded output of step 1. -/
theorem Cook_reruns_passed_steps :
    Cook (Example.fresh [Example.tagStep, Example.passStep] none) (bytesNewReader [1]) =
      some ⟨.ok (bytesNewReader [7, 1]),
        some ⟨[⟨0, "tag", [1], [7, 1], ""⟩, ⟨1, "pass", [7, 1], [7, 1], ""⟩]⟩,
        [⟨0, [1]⟩, ⟨1, [7, 1]⟩]⟩ ∧
    Cook (Example.fresh [Example.tagStep, Example.passStep]
        (some ⟨[⟨0, "tag", [1], [7, 1], ""⟩, ⟨1, "pass", [7, 1], [7, 1], ""⟩]⟩))
        (bytesNewReader [1]) =
      some ⟨.ok (bytesNewReader [7, 7, 1]),
        some ⟨[⟨0, "tag", [7, 1], [7, 7, 1], ""⟩, ⟨1, "pass", [7, 7, 1], [7, 7, 1], ""⟩]⟩,
        [⟨0, [7, 1]⟩, ⟨1, [7, 7, 1]⟩]⟩ := by
  refine ⟨by decide, by decide⟩

/-! ## New: unsupported kinds -/

theorem bindSteps_ok (errorf : String → String → GoError) (m : StepFuncMap)
    (steps : List Step) (h : ∀ s ∈ steps, s.Kind = "step/v1") :
    bindSteps errorf m steps =
      .ok (steps.map (fun s => { s with StepFunc := m s.Name })) := by
  induction steps with
  | nil => rfl
  | cons s rest ih =>
    have hs : s.Kind = "step/v1" := h s (List.mem_cons_self _ _)
    have hrest : ∀ t ∈ rest, t.Kind = "step/v1" := fun t ht => h t (List.mem_cons_of_mem _ ht)
    rw [bindSteps]
    simp only [hs, ne_eq, not_true_eq_false, if_false, ih hrest, List.map_cons]

theorem bindSteps_error (errorf : String → String → GoError) (m : StepFuncMap)
    (pre post : List Step) (s : Step) (hpre : ∀ t ∈ pre, t.Kind = "step/v1")
    (hs : s.Kind ≠ "step/v1") :
    bindSteps errorf m (pre ++ s :: post) =
      .error (errorf "unsupported step kind: %q" s.Kind) := by
  induction pre with
  | nil =>
    rw [List.nil_append, bindSteps]
    simp only [hs, ne_eq, not_false_eq_true, if_true]
  | cons t rest ih =>
    have ht : t.Kind = "step/v1" := hpre t (List.mem_cons_self _ _)
    have hrest : ∀ u ∈ rest, u.Kind = "step/v1" :=
      fun u hu => hpre u (List.mem_cons_of_mem _ hu)
    rw [List.cons_append, bindSteps]
    simp only [ht, ne_eq, not_true_eq_false, if_false, ih hrest]

theorem first_unsupported (decls : List StepDecl) (h : ∃ d ∈ decls, d.Kind ≠ "step/v1") :
    ∃ pre d post, decls = pre ++ d :: post ∧ (∀ p ∈ pre, p.Kind = "step/v1") ∧
      d.Kind ≠ "step/v1" := by
  induction decls with
  | nil => obtain ⟨d, hd, -⟩ := h; simp at hd
  | cons d rest ih =>
    by_cases hd : d.Kind = "step/v1"
    · obtain ⟨e, he, hek⟩ := h
      rcases List.mem_cons.mp he with h0 | h0
      · rw [h0] at hek; exact absurd hd hek
      · obtain ⟨pre, f, post, h1, h2, h3⟩ := ih ⟨e, h0, hek⟩
        refine ⟨d :: pre, f, post, by rw [h1]; rfl, ?_, h3⟩
        intro p hp
        rcases List.mem_cons.mp hp with h4 | h4
        · rw [h4]; exact hd
        · exact h2 p h4
    · exact ⟨[], d, rest, rfl, by simp, hd⟩

/-- What `New` returns for a document that decoded without error. -/
theorem New_decoded (errorf : String → String → GoError) (doc : Decoded)
    (m : StepFuncMap) (options : List RecipeOption) (hdec : doc.err = none) :
    (doc.Kind ≠ "recipe/v1" →
      New errorf doc m options =
        (none, some (errorf "unsupported recipe kind: %q" doc.Kind))) ∧
    (doc.Kind = "recipe/v1" → ∀ pre d post, doc.Steps = pre ++ d :: post →
      (∀ p ∈ pre, p.Kind = "step/v1") → d.Kind ≠ "step/v1" →
      New errorf doc m options =
        (none, some (errorf "unsupported step kind: %q" d.Kind))) ∧
    (doc.Kind = "recipe/v1" → (∀ d ∈ doc.Steps, d.Kind = "step/v1") →
      ∃ r, New errorf doc m options = (some r, none)) := by
  refine ⟨?_, ?_, ?_⟩
  · intro hk
    simp only [New, hdec, hk, ne_eq, not_false_eq_true, if_true]
  · intro hk pre d post hsteps hpre hd
    have hb := bindSteps_error errorf m (pre.map (fun d => (⟨d.Kind, d.Name, none⟩ : Step)))
      (post.map (fun d => (⟨d.Kind, d.Name, none⟩ : Step))) ⟨d.Kind, d.Name, none⟩
      (by
        intro t ht
        obtain ⟨p, hp, rfl⟩ := List.mem_map.mp ht
        exact hpre p hp) hd
    simp only [New, hdec, hk, ne_eq, not_true_eq_false, if_false, hsteps, List.map_append,
      List.map_cons, hb]
  · intro hk hall
    have hb := bindSteps_ok errorf m (doc.Steps.map (fun d => (⟨d.Kind, d.Name, none⟩ : Step)))
      (by
        intro t ht
        obtain ⟨p, hp, rfl⟩ := List.mem_map.mp ht
        exact hall p hp)
    simp only [New, hdec, hk, ne_eq, not_true_eq_false, if_false, hb]
    exact ⟨_, rfl⟩

/-- C10. For a document that decoded without error, and every registry and
options: `New` returns an error if and only if the Recipe's kind is not
`recipe/v1` or some step's kind is not `step/v1`; it then returns no Recipe; a
wrong Recipe kind is the one reported whatever the steps are, and otherwise the
first step in declared order with a wrong kind is the one reported. -/
theorem New_fails_iff_unsupported_kind (errorf : String → String → GoError) (doc : Decoded)
    (m : StepFuncMap) (options : List RecipeOption) (hdec : doc.err = none) :
    ((New errorf doc m options).2 ≠ none ↔
      (doc.Kind ≠ "recipe/v1" ∨ ∃ d ∈ doc.Steps, d.Kind ≠ "step/v1")) ∧
    ((New errorf doc m options).2 ≠ none → (New errorf doc m options).1 = none) ∧
    (doc.Kind ≠ "recipe/v1" →
      (New errorf doc m options).2 = some (errorf "unsupported recipe kind: %q" doc.Kind)) ∧
    (doc.Kind = "recipe/v1" → ∀ pre d post, doc.Steps = pre ++ d :: post →
      (∀ p ∈ pre, p.Kind = "step/v1") → d.Kind ≠ "step/v1" →
      (New errorf doc m options).2 = some (errorf "unsupported step kind: %q" d.Kind)) := by
  obtain ⟨h1, h2, h3⟩ := New_decoded errorf doc m options hdec
  have hcases : (doc.Kind ≠ "recipe/v1" ∨ ∃ d ∈ doc.Steps, d.Kind ≠ "step/v1") →
      (New errorf doc m options).2 ≠ none ∧ (New errorf doc m options).1 = none := by
    intro h
    by_cases hk : doc.Kind = "recipe/v1"
    · rcases h with h | h
      · exact absurd hk h
      · obtain ⟨pre, d, post, hs, hpre, hd⟩ := first_unsupported doc.Steps h
        rw [h2 hk pre d post hs hpre hd]
        simp
    · rw [h1 hk]
      simp
  have hvalid : ¬ (doc.Kind ≠ "recipe/v1" ∨ ∃ d ∈ doc.Steps, d.Kind ≠ "step/v1") →
      (New errorf doc m options).2 = none := by
    intro h
    have hk : doc.Kind = "recipe/v1" := by
      by_contra hc
      exact h (Or.inl hc)
    have hall : ∀ d ∈ doc.Steps, d.Kind = "step/v1" := by
      intro d hd
      by_contra hc
      exact h (Or.inr ⟨d, hd, hc⟩)
    obtain ⟨r, hr⟩ := h3 hk hall
    rw [hr]
  refine ⟨⟨?_, fun h => (hcases h).1⟩, ?_, ?_, ?_⟩
  · intro herr
    by_contra hc
    exact herr (hvalid hc)
  · intro herr
    by_cases hc : doc.Kind ≠ "recipe/v1" ∨ ∃ d ∈ doc.Steps, d.Kind ≠ "step/v1"
    · exact (hcases hc).2
    · exact absurd (hvalid hc) herr
  · intro hk
    rw [h1 hk]
  · intro hk pre d post hs hpre hd
    rw [h2 hk pre d post hs hpre hd]

/-- C10, at a document of kind `recipe/v1` whose second and third steps have
unsupported kinds: `New` fails and reports the second step. -/
theorem New_fails_iff_unsupported_kind_witness :
    (New Example.errorf Example.badStepsDoc Example.registry []).2 =
      some (Example.errorf "unsupported step kind: %q" "step/v2") ∧
    (New Example.errorf Example.badStepsDoc Example.registry []).1 = none := by
  have h := New_fails_iff_unsupported_kind Example.errorf Example.badStepsDoc
    Example.registry [] rfl
  refine ⟨h.2.2.2 rfl [⟨"step/v1", "pass"⟩] ⟨"step/v2", "tag"⟩ [⟨"step/v3", "tag"⟩] rfl
    (by decide) (by decide), h.2.1 (h.1.mpr (Or.inr ⟨⟨"step/v2", "tag"⟩, by decide, by decide⟩))⟩

/-! ## New: binding the steps -/

/-- What `New` returns for a document that decoded without error and whose kinds
are all supported: the Recipe under construction with the document's fields and
every step bound through the registry. -/
theorem New_valid (errorf : String → String → GoError) (doc : Decoded)
    (m : StepFuncMap) (options : List RecipeOption) (hdec : doc.err = none)
    (hk : doc.Kind = "recipe/v1") (hall : ∀ d ∈ doc.Steps, d.Kind = "step/v1") :
    ∃ r, New errorf doc m options = (some r, none) ∧ r.Kind = doc.Kind ∧
      r.Name = doc.Name ∧
      r.Steps = doc.Steps.map (fun d => (⟨d.Kind, d.Name, m d.Name⟩ : Step)) ∧
      r.prevState =
        (options.foldl (fun (r : Recipe) (opt : RecipeOption) => opt r)
          (⟨"", "", [], none, none⟩ : Recipe)).prevState ∧
      ∃ st, r.state = some st := by
  have hb := bindSteps_ok errorf m (doc.Steps.map (fun d => (⟨d.Kind, d.Name, none⟩ : Step)))
    (by
      intro t ht
      obtain ⟨p, hp, rfl⟩ := List.mem_map.mp ht
      exact hall p hp)
  simp only [New, hdec, hk, ne_eq, not_true_eq_false, if_false, hb]
  generalize (options.foldl (fun (r : Recipe) (opt : RecipeOption) => opt r)
    (⟨"", "", [], none, none⟩ : Recipe)) = r1
  obtain ⟨k1, n1, s1, p1, st1⟩ := r1
  refine ⟨_, rfl, rfl, rfl, ?_, ?_, ?_⟩
  · simp [List.map_map, Function.comp]
  · cases st1 <;> rfl
  · cases st1
    · exact ⟨_, rfl⟩
    · exact ⟨_, rfl⟩

/-- C11. For a document that decoded without error, with Recipe kind `recipe/v1`
and every step kind `step/v1`, and every registry: `New` returns, without error, a
Recipe with the document's name and exactly the document's steps in declared
order, the function of each step being the registry entry for the step's name, so
that `Step.Do` on any input returns what the registry function returns on it (and
is the nil-function call when the registry has no entry). -/
theorem New_binds_registry (errorf : String → String → GoError) (doc : Decoded)
    (m : StepFuncMap) (options : List RecipeOption) (hdec : doc.err = none)
    (hk : doc.Kind = "recipe/v1") (hall : ∀ d ∈ doc.Steps, d.Kind = "step/v1") :
    ∃ r, New errorf doc m options = (some r, none) ∧ r.Name = doc.Name ∧
      r.Steps.length = doc.Steps.length ∧
      ∀ (i : Nat) (d : StepDecl), doc.Steps[i]? = some d →
        ∃ s, r.Steps[i]? = some s ∧ s.Name = d.Name ∧ s.Kind = d.Kind ∧
          s.StepFunc = m d.Name ∧
          ∀ input, s.Do input = (m d.Name).map (fun f => f input) := by
  obtain ⟨r, h1, -, h3, h4, -, -⟩ := New_valid errorf doc m options hdec hk hall
  refine ⟨r, h1, h3, by rw [h4, List.length_map], ?_⟩
  intro i d hd
  refine ⟨⟨d.Kind, d.Name, m d.Name⟩, by rw [h4, List.getElem?_map, hd]; rfl, rfl, rfl, rfl, ?_⟩
  intro input
  simp only [Step.Do]
  cases m d.Name <;> rfl

/-- C11, at the two-step document of the tests, with the registry of the examples. -/
theorem New_binds_registry_witness :
    ∃ r, New Example.errorf Example.goodDoc Example.registry [] = (some r, none) ∧
      r.Name = "test recipe" ∧ r.Steps.length = 2 ∧
      ∀ (i : Nat) (d : StepDecl), Example.goodDoc.Steps[i]? = some d →
        ∃ s, r.Steps[i]? = some s ∧ s.Name = d.Name ∧ s.Kind = d.Kind ∧
          s.StepFunc = Example.registry d.Name ∧
          ∀ input, s.Do input = (Example.registry d.Name).map (fun f => f input) :=
  New_binds_registry Example.errorf Example.goodDoc Example.registry [] rfl rfl (by decide)

/-! ## Resume points that need no run, and index safety -/

theorem cookLoop_stale (steps : List Step) (fuel : Nat) (k : Int) (output : Reader)
    (st : Option State) (calls : List Call) (hk : (steps.length : Int) ≤ k) :
    cookLoop steps (fuel + 1) k output st calls = some ⟨.ok output, st, calls⟩ := by
  have hlt : ¬ k < (steps.length : Int) := by omega
  rw [cookLoop]
  simp only [hlt, if_false]

theorem cookLoop_negative (steps : List Step) (fuel : Nat) (k : Int) (output : Reader)
    (st : Option State) (calls : List Call) (hk : k < 0) :
    cookLoop steps (fuel + 1) k output st calls =
      some ⟨.panic .indexOutOfRange, st, calls⟩ := by
  have hlt : k < (steps.length : Int) := by omega
  rw [cookLoop]
  simp only [hlt, if_true, indexStep, hk]

/-- From a non-negative index the loop never indexes `steps` out of range. -/
theorem cookLoop_index_safe (steps : List Step) :
    ∀ (fuel : Nat) (k : Int) (output : Reader) (st : Option State) (calls : List Call)
      (res : CookResult), 0 ≤ k → cookLoop steps fuel k output st calls = some res →
      res.outcome ≠ .panic .indexOutOfRange := by
  intro fuel
  induction fuel with
  | zero => intro k output st calls res _ h; simp [cookLoop] at h
  | succ fuel ih =>
    intro k output st calls res hk h
    rw [cookLoop] at h
    by_cases hlt : k < (steps.length : Int)
    · simp only [hlt, if_true] at h
      have hnn : ¬ k < 0 := by omega
      have hlt2 : k.toNat < steps.length := by omega
      have hidx : indexStep steps k = some steps[k.toNat] := by
        simp only [indexStep, hnn, if_false, List.getElem?_eq_getElem hlt2]
      simp only [hidx] at h
      cases hdup : mustDupReader output with
      | error e =>
        simp only [hdup, Option.some.injEq] at h
        subst h
        simp
      | ok p =>
        obtain ⟨input, inputText⟩ := p
        simp only [hdup] at h
        cases hdo : (steps[k.toNat]).Do input with
        | none =>
          simp only [hdo, Option.some.injEq] at h
          subst h
          simp
        | some q =>
          obtain ⟨out, err⟩ := q
          cases err with
          | some e =>
            simp only [hdo] at h
            cases happ : appendAction st ⟨k, (steps[k.toNat]).Name, inputText, [], e.Error⟩ with
            | none =>
              simp only [happ, Option.some.injEq] at h
              subst h
              simp
            | some st1 =>
              simp only [happ, Option.some.injEq] at h
              subst h
              simp
          | none =>
            simp only [hdo] at h
            cases hdup2 : mustDupReader out with
            | error e =>
              simp only [hdup2, Option.some.injEq] at h
              subst h
              simp
            | ok p2 =>
              obtain ⟨output1, outputText⟩ := p2
              simp only [hdup2] at h
              cases happ : appendAction st
                  ⟨k, (steps[k.toNat]).Name, inputText, outputText, ""⟩ with
              | none =>
                simp only [happ, Option.some.injEq] at h
                subst h
                simp
              | some st1 =>
                simp only [happ] at h
                exact ih (k + 1) output1 (some st1) _ res (by omega) h
    · simp only [hlt, if_false, Option.some.injEq] at h
      subst h
      simp

/-- The resume point always exists, and its index is 0 or the step index of a
failed Action of the previous State. -/
theorem resumePoint_index (prevState : Option State) (input : Reader) :
    ∃ k output, resumePoint prevState input = some (k, output) ∧
      (k = 0 ∨ ∃ prev a, prevState = some prev ∧ a ∈ prev.Actions ∧ a.Err ≠ "" ∧
        k = a.StepIndex) := by
  cases prevState with
  | none => exact ⟨0, input, rfl, Or.inl rfl⟩
  | some prev =>
    obtain ⟨acts⟩ := prev
    rcases failed_or_all_passing acts with h | ⟨pre, a, post, h1, h2, h3⟩
    · exact ⟨_, _, resumePoint_passing acts input h, Or.inl rfl⟩
    · subst h1
      exact ⟨_, _, resumePoint_failed pre post a input h2 h3,
        Or.inr ⟨_, a, rfl, by simp, h3, rfl⟩⟩

/-- C19. Stale resume index: when the first failed Action of the previous State
has a step index that is at least the number of steps, `Cook` calls no step,
appends no Action, and returns without error the carried input: the recorded
output of the last Action before the failed one, or its own input when there is
none. -/
theorem Cook_stale_resume_index (r : Recipe) (pre post : List Action) (a : Action)
    (input : Reader) (hprev : r.prevState = some ⟨pre ++ a :: post⟩)
    (hpre : ∀ b ∈ pre, b.Err = "") (ha : a.Err ≠ "")
    (hn : (r.Steps.length : Int) ≤ a.StepIndex) :
    Cook r input =
      some ⟨.ok (match pre.getLast? with
                 | some b => bytesNewReader b.Output
                 | none => input), r.state, []⟩ := by
  simp only [Cook, hprev, resumePoint_failed pre post a input hpre ha]
  exact cookLoop_stale r.Steps r.Steps.length a.StepIndex _ r.state [] hn

/-- C19, at a two-step Recipe resumed from a State that failed at step index 2. -/
theorem Cook_stale_resume_index_witness :
    Cook (Example.fresh [Example.passStep, Example.tagStep] (some Example.staleState))
        (bytesNewReader [4]) =
      some ⟨.ok (bytesNewReader [5]), some ⟨[]⟩, []⟩ :=
  Cook_stale_resume_index
    (Example.fresh [Example.passStep, Example.tagStep] (some Example.staleState))
    [⟨0, "pass", [1], [1], ""⟩, ⟨1, "tag", [1], [5], ""⟩] [] ⟨2, "more", [5], [], "boom"⟩
    (bytesNewReader [4]) rfl (by decide) (by decide) (by decide)

/-- C18. Resuming ignores the input of `Cook` once the log has a success: with a
previous State whose first Action has an empty error, `Cook` on any two inputs
makes the same calls on the same bytes, has the same outcome and leaves the same
State. -/
theorem Cook_ignores_input (r : Recipe) (a : Action) (rest : List Action) (x y : Reader)
    (hprev : r.prevState = some ⟨a :: rest⟩) (ha : a.Err = "") :
    ∃ res, Cook r x = some res ∧ Cook r y = some res := by
  have hres : resumePoint r.prevState x = resumePoint r.prevState y := by
    rw [hprev]
    rcases failed_or_all_passing (a :: rest) with h | ⟨pre, b, post, h1, h2, h3⟩
    · rw [resumePoint_passing _ x h, resumePoint_passing _ y h]
      cases hl : (a :: rest).getLast? with
      | none => simp at hl
      | some c => rfl
    · cases pre with
      | nil =>
        simp only [List.nil_append, List.cons.injEq] at h1
        rw [h1.1] at ha
        exact absurd ha h3
      | cons p pre1 =>
        rw [h1, resumePoint_failed _ post b x h2 h3, resumePoint_failed _ post b y h2 h3]
        cases hl : (p :: pre1).getLast? with
        | none => simp at hl
        | some c => rfl
  obtain ⟨res, hx⟩ := Cook_returns r x
  refine ⟨res, hx, ?_⟩
  rw [← hx]
  simp only [Cook, hres]

/-- C18, at a State recording a passed step 0 and a failed step 1, on two inputs. -/
theorem Cook_ignores_input_witness :
    ∃ res, Cook (Example.fresh [Example.passStep, Example.tagStep]
        (some Example.passedThenFailed)) (bytesNewReader [4]) = some res ∧
      Cook (Example.fresh [Example.passStep, Example.tagStep]
        (some Example.passedThenFailed)) (bytesNewReader [9, 9]) = some res :=
  Cook_ignores_input
    (Example.fresh [Example.passStep, Example.tagStep] (some Example.passedThenFailed))
    ⟨0, "pass", [1], [5], ""⟩ [⟨1, "tag", [5], [], "boom"⟩]
    (bytesNewReader [4]) (bytesNewReader [9, 9]) rfl rfl

/-- C20. Index safety.  The access `prevState.Actions[outputIdx]` is in bounds for
every previous State; when no Action of the previous State has a negative step
index, every access `Steps[stepIdx]` is in bounds, so `Cook` never ends in the
index-out-of-range panic; and the condition cannot be dropped: when the first
failed Action has a negative step index, the first access `Steps[stepIdx]` is out
of range, before any step is called. -/
theorem Cook_index_safety (r : Recipe) (input : Reader) :
    (∃ p, resumePoint r.prevState input = some p) ∧
    ((∀ prev, r.prevState = some prev → ∀ a ∈ prev.Actions, 0 ≤ a.StepIndex) →
      ∃ res, Cook r input = some res ∧ res.outcome ≠ .panic .indexOutOfRange) ∧
    (∀ pre a post, r.prevState = some ⟨pre ++ a :: post⟩ → (∀ b ∈ pre, b.Err = "") →
      a.Err ≠ "" → a.StepIndex < 0 →
      Cook r input = some ⟨.panic .indexOutOfRange, r.state, []⟩) := by
  obtain ⟨k, output, hres, hk⟩ := resumePoint_index r.prevState input
  refine ⟨⟨_, hres⟩, ?_, ?_⟩
  · intro hnn
    have hk0 : 0 ≤ k := by
      rcases hk with h | ⟨prev, a, hp, hmem, -, hka⟩
      · omega
      · rw [hka]
        exact hnn prev hp a hmem
    obtain ⟨res, hcook⟩ := Cook_returns r input
    refine ⟨res, hcook, ?_⟩
    simp only [Cook, hres] at hcook
    exact cookLoop_index_safe r.Steps _ k output r.state [] res hk0 hcook
  · intro pre a post hprev hpre ha hneg
    simp only [Cook, hprev, resumePoint_failed pre post a input hpre ha]
    exact cookLoop_negative r.Steps r.Steps.length a.StepIndex _ r.state [] hneg

/-- C20, at a State whose only Action failed with step index -1. -/
theorem Cook_index_safety_witness :
    Cook (Example.fresh [Example.passStep] (some ⟨[⟨-1, "pass", [1], [], "boom"⟩]⟩))
        (bytesNewReader [4]) =
      some ⟨.panic .indexOutOfRange, some ⟨[]⟩, []⟩ :=
  (Cook_index_safety
    (Example.fresh [Example.passStep] (some ⟨[⟨-1, "pass", [1], [], "boom"⟩]⟩))
    (bytesNewReader [4])).2.2 [] ⟨-1, "pass", [1], [], "boom"⟩ [] rfl (by decide) (by decide)
    (by decide)

/-! ## Shape of the log of one run -/

theorem mustDupReader_data (r out : Reader) (text : Bytes)
    (h : mustDupReader r = .ok (out, text)) : r.data = text := by
  have h2 := (mustDupReader_ok r out text h).2
  simp only [ioReadAll, Prod.mk.injEq] at h2
  exact h2.1

/-- The first Action of a run records the index and the bytes the run starts with. -/
theorem runSteps_first_action (l : List Step) (k : Int) (output : Reader) (a : Action)
    (h : (runSteps l k output).2.1[0]? = some a) :
    a.Input = output.data ∧ a.StepIndex = k := by
  cases l with
  | nil => simp [runSteps] at h
  | cons s0 rest =>
    rw [runSteps] at h
    cases hdup : mustDupReader output with
    | error e1 => simp [hdup] at h
    | ok p =>
      obtain ⟨input, inputText⟩ := p
      have hdata := mustDupReader_data output input inputText hdup
      simp only [hdup] at h
      cases hdo : s0.Do input with
      | none => simp [hdo] at h
      | some q =>
        obtain ⟨out, err⟩ := q
        cases err with
        | some e2 =>
          simp only [hdo, List.getElem?_cons_zero, Option.some.injEq] at h
          subst h
          exact ⟨hdata.symm, rfl⟩
        | none =>
          simp only [hdo] at h
          cases hdup2 : mustDupReader out with
          | error e3 => simp [hdup2] at h
          | ok p2 =>
            simp only [hdup2, List.getElem?_cons_zero, Option.some.injEq] at h
            subst h
            exact ⟨hdata.symm, rfl⟩

/-- In the log of a run every Action after the first has for input the output of
the Action before it. -/
theorem runSteps_chain (l : List Step) :
    ∀ (k : Int) (output : Reader) (i : Nat) (a b : Action),
      (runSteps l k output).2.1[i]? = some a → (runSteps l k output).2.1[i + 1]? = some b →
      b.Input = a.Output := by
  induction l with
  | nil => intro k output i a b h; simp [runSteps] at h
  | cons s0 rest ih =>
    intro k output i a b ha hb
    rw [runSteps] at ha hb
    cases hdup : mustDupReader output with
    | error e1 => simp [hdup] at ha
    | ok p =>
      obtain ⟨input, inputText⟩ := p
      simp only [hdup] at ha hb
      cases hdo : s0.Do input with
      | none => simp [hdo] at ha
      | some q =>
        obtain ⟨out, err⟩ := q
        cases err with
        | some e2 => simp [hdo] at hb
        | none =>
          simp only [hdo] at ha hb
          cases hdup2 : mustDupReader out with
          | error e3 => simp [hdup2] at ha
          | ok p2 =>
            obtain ⟨output1, outputText⟩ := p2
            obtain ⟨hout, -⟩ := mustDupReader_ok out output1 outputText hdup2
            simp only [hdup2, List.getElem?_cons_succ] at ha hb
            cases i with
            | zero =>
              simp only [List.getElem?_cons_zero, Option.some.injEq] at ha
              subst ha
              have h1 := (runSteps_first_action rest (k + 1) output1 b hb).1
              rw [h1, hout]
              rfl
            | succ j =>
              simp only [List.getElem?_cons_succ] at ha
              exact ih (k + 1) output1 j a b ha hb

theorem runSteps_actions_le_calls (l : List Step) :
    ∀ (k : Int) (output : Reader),
      (runSteps l k output).2.1.length ≤ (runSteps l k output).2.2.length := by
  induction l with
  | nil => intro k output; simp [runSteps]
  | cons s0 rest ih =>
    intro k output
    rw [runSteps]
    cases hdup : mustDupReader output with
    | error e1 => simp
    | ok p =>
      obtain ⟨input, inputText⟩ := p
      simp only []
      cases hdo : s0.Do input with
      | none => simp
      | some q =>
        obtain ⟨out, err⟩ := q
        cases err with
        | some e2 => simp
        | none =>
          simp only []
          cases hdup2 : mustDupReader out with
          | error e3 => simp
          | ok p2 =>
            obtain ⟨output1, outputText⟩ := p2
            simp only [List.length_cons]
            exact Nat.succ_le_succ (ih (k + 1) output1)

/-- C16. Log chaining: in the State left by one `Cook` call on a Recipe whose log
was empty, the step indices of the Actions are consecutive, starting at the resume
index; the first Action's input is the carried input (the input of `Cook` when
there is no previous State); and the input of every later Action equals the
output of the Action before it. -/
theorem Cook_log_chained (r : Recipe) (input : Reader) (hst : r.state = some ⟨[]⟩) :
    ∃ res acts k carried, Cook r input = some res ∧ res.state = some ⟨acts⟩ ∧
      resumePoint r.prevState input = some (k, carried) ∧
      (r.prevState = none → k = 0 ∧ carried = input) ∧
      (∀ (i : Nat) (a : Action), acts[i]? = some a → a.StepIndex = k + (i : Int)) ∧
      (∀ a, acts[0]? = some a → a.Input = carried.data) ∧
      (∀ (i : Nat) (a b : Action), acts[i]? = some a → acts[i + 1]? = some b →
        b.Input = a.Output) := by
  have hnone : ∀ k carried, resumePoint r.prevState input = some (k, carried) →
      r.prevState = none → k = 0 ∧ carried = input := by
    intro k carried hres hp
    rw [hp] at hres
    simp only [resumePoint, Option.some.injEq, Prod.mk.injEq] at hres
    exact ⟨hres.1.symm, hres.2.symm⟩
  rcases Cook_shape r ⟨[]⟩ input hst with h | ⟨k, output, hres, h⟩
  · obtain ⟨k, carried, hres, -⟩ := resumePoint_index r.prevState input
    exact ⟨_, [], k, carried, h, rfl, hres, hnone k carried hres,
      by intro i a hi; simp at hi, by intro a hi; simp at hi, by intro i a b hi; simp at hi⟩
  · refine ⟨_, (runSteps (r.Steps.drop k) (k : Int) output).2.1, (k : Int), output, h,
      by simp, hres, hnone _ _ hres, ?_, ?_, ?_⟩
    · intro i a hi
      obtain ⟨c, s, out, err, hc, -, -, h1, -⟩ := runSteps_actions_record _ _ _ _ _ hi
      rw [h1, (runSteps_calls_index _ _ _ _ _ hc).1]
    · intro a hi
      exact (runSteps_first_action _ _ _ a hi).1
    · intro i a b hi hj
      exact runSteps_chain _ _ _ i a b hi hj

/-- C16, at a three-step Recipe resumed at step 1. -/
theorem Cook_log_chained_witness :
    ∃ res acts k carried,
      Cook (Example.fresh [Example.passStep, Example.tagStep, Example.tagStep]
        (some Example.passedThenFailed)) (bytesNewReader [4]) = some res ∧
      res.state = some ⟨acts⟩ ∧
      resumePoint (some Example.passedThenFailed) (bytesNewReader [4]) = some (k, carried) ∧
      (some Example.passedThenFailed = none → k = 0 ∧ carried = bytesNewReader [4]) ∧
      (∀ (i : Nat) (a : Action), acts[i]? = some a → a.StepIndex = k + (i : Int)) ∧
      (∀ a, acts[0]? = some a → a.Input = carried.data) ∧
      (∀ (i : Nat) (a b : Action), acts[i]? = some a → acts[i + 1]? = some b →
        b.Input = a.Output) :=
  Cook_log_chained
    (Example.fresh [Example.passStep, Example.tagStep, Example.tagStep]
      (some Example.passedThenFailed)) (bytesNewReader [4]) rfl

/-- C17. In the State left by one `Cook` call on a Recipe whose log was empty,
every Action but the last has an empty error and records a step that succeeded,
returning the Action's output; so an Action that records a step that returned an
error can only be the last one. -/
theorem Cook_only_last_action_fails (r : Recipe) (input : Reader)
    (hst : r.state = some ⟨[]⟩) :
    ∃ res acts, Cook r input = some res ∧ res.state = some ⟨acts⟩ ∧
      (∀ (i : Nat) (a : Action), acts[i]? = some a → i + 1 < acts.length →
        a.Err = "" ∧ ∃ c s, res.calls[i]? = some c ∧
          indexStep r.Steps c.stepIdx = some s ∧ s.returns c.input = some a.Output) ∧
      (∀ (i : Nat) (a : Action) (c : Call) (s : Step) (e : GoError), acts[i]? = some a →
        res.calls[i]? = some c → indexStep r.Steps c.stepIdx = some s →
        s.failsWith c.input = some e → i + 1 = acts.length) := by
  rcases Cook_shape r ⟨[]⟩ input hst with h | ⟨k, output, -, h⟩
  · exact ⟨_, [], h, rfl, by intro i a hi; simp at hi, by intro i a c s e hi; simp at hi⟩
  · have hidx : ∀ (i : Nat) (c : Call) (s : Step),
        (runSteps (r.Steps.drop k) (k : Int) output).2.2[i]? = some c →
        indexStep r.Steps c.stepIdx = some s → (r.Steps.drop k)[i]? = some s := by
      intro i c s hc hs
      have hcast : ((k : Int) + (i : Int)) = ((k + i : Nat) : Int) := by push_cast; rfl
      rw [(runSteps_calls_index _ _ _ _ _ hc).1, hcast, indexStep_natCast] at hs
      rw [List.getElem?_drop]
      exact hs
    have hlast : ∀ (i : Nat) (a : Action) (c : Call) (s : Step) (e : GoError),
        (runSteps (r.Steps.drop k) (k : Int) output).2.1[i]? = some a →
        (runSteps (r.Steps.drop k) (k : Int) output).2.2[i]? = some c →
        (r.Steps.drop k)[i]? = some s → s.failsWith c.input = some e →
        i + 1 = (runSteps (r.Steps.drop k) (k : Int) output).2.1.length := by
      intro i a c s e hi hc hs hfail
      have hlen := (runSteps_fail_fast _ _ _ _ _ _ _ hc hs hfail).2
      have hle := runSteps_actions_le_calls (r.Steps.drop k) (k : Int) output
      have hlt : i < (runSteps (r.Steps.drop k) (k : Int) output).2.1.length := by
        by_contra hcon
        rw [List.getElem?_eq_none (by omega)] at hi
        cases hi
      omega
    refine ⟨_, (runSteps (r.Steps.drop k) (k : Int) output).2.1, h, by simp, ?_, ?_⟩
    · intro i a hi hnl
      obtain ⟨c, s, out, err, hc, hs, hdo, -, -, -, h4, -⟩ :=
        runSteps_actions_record _ _ _ _ _ hi
      have hs2 : indexStep r.Steps c.stepIdx = some s := by
        have hcast : ((k : Int) + (i : Int)) = ((k + i : Nat) : Int) := by push_cast; rfl
        rw [(runSteps_calls_index _ _ _ _ _ hc).1, hcast, indexStep_natCast]
        rw [List.getElem?_drop] at hs
        exact hs
      cases err with
      | some e =>
        have hfail : s.failsWith c.input = some e := by
          simp only [Step.failsWith, hdo]
        have := hlast i a c s e hi hc hs hfail
        omega
      | none =>
        obtain ⟨hread, herr⟩ := h4 rfl
        refine ⟨herr, c, s, hc, hs2, ?_⟩
        simp only [Step.returns, hdo, hread]
    · intro i a c s e hi hc hs hfail
      exact hlast i a c s e hi hc (hidx i c s hc hs) hfail

/-- C17, at a run in which the second of three steps fails. -/
theorem Cook_only_last_action_fails_witness :
    ∃ res acts,
      Cook (Example.fresh [Example.passStep, Example.failStep Example.boom, Example.tagStep]
        none) (bytesNewReader [1, 2]) = some res ∧
      res.state = some ⟨acts⟩ ∧
      (∀ (i : Nat) (a : Action), acts[i]? = some a → i + 1 < acts.length →
        a.Err = "" ∧ ∃ c s, res.calls[i]? = some c ∧
          indexStep [Example.passStep, Example.failStep Example.boom, Example.tagStep]
            c.stepIdx = some s ∧ s.returns c.input = some a.Output) ∧
      (∀ (i : Nat) (a : Action) (c : Call) (s : Step) (e : GoError), acts[i]? = some a →
        res.calls[i]? = some c →
        indexStep [Example.passStep, Example.failStep Example.boom, Example.tagStep]
          c.stepIdx = some s →
        s.failsWith c.input = some e → i + 1 = acts.length) :=
  Cook_only_last_action_fails
    (Example.fresh [Example.passStep, Example.failStep Example.boom, Example.tagStep] none)
    (bytesNewReader [1, 2]) rfl

/-! ## Steps without a registered function -/

/-- A call of a step whose function is nil ends the run in the nil-function panic. -/
theorem runSteps_nil_call (l : List Step) :
    ∀ (k : Int) (output : Reader) (i : Nat) (c : Call) (s : Step),
      (runSteps l k output).2.2[i]? = some c → l[i]? = some s → s.StepFunc = none →
      (runSteps l k output).1 = .panic .nilFunc := by
  induction l with
  | nil => intro k output i c s h; simp [runSteps] at h
  | cons s0 rest ih =>
    intro k output i c s h hs hnil
    rw [runSteps] at h ⊢
    cases hdup : mustDupReader output with
    | error e1 => simp [hdup] at h
    | ok p =>
      obtain ⟨input, inputText⟩ := p
      simp only [hdup] at h ⊢
      cases i with
      | zero =>
        simp only [List.getElem?_cons_zero, Option.some.injEq] at hs
        subst hs
        have hdo : s0.Do input = none := by simp only [Step.Do, hnil]
        simp only [hdo]
      | succ j =>
        simp only [List.getElem?_cons_succ] at hs
        cases hdo : s0.Do input with
        | none => simp [hdo] at h
        | some q =>
          obtain ⟨out, err⟩ := q
          cases err with
          | some e2 => simp [hdo] at h
          | none =>
            simp only [hdo] at h ⊢
            cases hdup2 : mustDupReader out with
            | error e3 => simp [hdup2] at h
            | ok p2 =>
              obtain ⟨output1, outputText⟩ := p2
              simp only [hdup2, List.getElem?_cons_succ] at h ⊢
              exact ih (k + 1) output1 j c s h hs hnil

/-- A run that does not call the step at some position does not depend on the
function of that step. -/
theorem runSteps_rebind (pre post : List Step) (s : Step) (f : Option StepFunc) :
    ∀ (k : Int) (output : Reader),
      (∀ c ∈ (runSteps (pre ++ s :: post) k output).2.2, c.stepIdx ≠ k + pre.length) →
      runSteps (pre ++ { s with StepFunc := f } :: post) k output =
        runSteps (pre ++ s :: post) k output := by
  induction pre with
  | nil =>
    intro k output h
    simp only [List.nil_append] at h ⊢
    rw [runSteps] at h
    rw [runSteps, runSteps]
    cases hdup : mustDupReader output with
    | error e1 => rfl
    | ok p =>
      obtain ⟨input, inputText⟩ := p
      exfalso
      simp only [hdup] at h
      have hmem : (⟨k, inputText⟩ : Call) ∈ (match s.Do input with
          | none => ((Outcome.panic PanicReason.nilFunc, ([] : List Action),
              [(⟨k, inputText⟩ : Call)]) : Outcome × List Action × List Call)
          | some (_, some err) =>
            (.error err, [⟨k, s.Name, inputText, [], err.Error⟩], [⟨k, inputText⟩])
          | some (out, none) =>
            match mustDupReader out with
            | .error e => (.panic (.readAll e), [], [⟨k, inputText⟩])
            | .ok (output1, outputText) =>
              ((runSteps post (k + 1) output1).1,
                ⟨k, s.Name, inputText, outputText, ""⟩ :: (runSteps post (k + 1) output1).2.1,
                ⟨k, inputText⟩ :: (runSteps post (k + 1) output1).2.2)).2.2 := by
        cases hdo : s.Do input with
        | none => simp
        | some q =>
          obtain ⟨out, err⟩ := q
          cases err with
          | some e2 => simp
          | none =>
            simp only []
            cases hdup2 : mustDupReader out with
            | error e3 => simp
            | ok p2 => simp
      exact h _ hmem (by simp)
  | cons p0 pre ih =>
    intro k output h
    simp only [List.cons_append] at h ⊢
    rw [runSteps] at h
    rw [runSteps, runSteps]
    cases hdup : mustDupReader output with
    | error e1 => rfl
    | ok p =>
      obtain ⟨input, inputText⟩ := p
      simp only [hdup] at h ⊢
      cases hdo : p0.Do input with
      | none => rfl
      | some q =>
        obtain ⟨out, err⟩ := q
        cases err with
        | some e2 => rfl
        | none =>
          simp only [hdo] at h ⊢
          cases hdup2 : mustDupReader out with
          | error e3 => rfl
          | ok p2 =>
            obtain ⟨output1, outputText⟩ := p2
            simp only [hdup2] at h ⊢
            have hrec := ih (k + 1) output1 (by
              intro c hc
              have h1 := h c (List.mem_cons_of_mem _ hc)
              intro hcon
              apply h1
              rw [hcon]
              simp only [List.length_cons]
              push_cast
              ring)
            rw [hrec]

theorem drop_rebind (pre post : List Step) (s t : Step) (n : Nat) (h : pre.length < n) :
    (pre ++ s :: post).drop n = (pre ++ t :: post).drop n := by
  rw [List.drop_append_eq_append_drop, List.drop_append_eq_append_drop,
    List.drop_eq_nil_of_le (by omega)]
  obtain ⟨m, hm⟩ : ∃ m, n - pre.length = m + 1 := ⟨n - pre.length - 1, by omega⟩
  rw [hm, List.drop_succ_cons, List.drop_succ_cons]

/-- A Recipe with a step whose function is nil: a `Cook` that calls the step ends
in the nil-function panic; a `Cook` that does not call it has the result it would
have with any function bound to the step; and a `Cook` in which an earlier step
fails, or which resumes past the step, does not call it. -/
theorem Cook_unbound_step (r : Recipe) (st : State) (pre post : List Step) (s : Step)
    (input : Reader) (hst : r.state = some st) (hsteps : r.Steps = pre ++ s :: post)
    (hnil : s.StepFunc = none) :
    ∃ res, Cook r input = some res ∧
      (∀ c ∈ res.calls, c.stepIdx = (pre.length : Int) → res.outcome = .panic .nilFunc) ∧
      ((∀ c ∈ res.calls, c.stepIdx ≠ (pre.length : Int)) → ∀ f : Option StepFunc,
        Cook { r with Steps := pre ++ { s with StepFunc := f } :: post } input = some res) ∧
      (∀ (c : Call) (t : Step) (e : GoError), c ∈ res.calls → c.stepIdx < (pre.length : Int) →
        indexStep r.Steps c.stepIdx = some t → t.failsWith c.input = some e →
        res.outcome = .error e ∧ ∀ c2 ∈ res.calls, c2.stepIdx ≠ (pre.length : Int)) ∧
      (∀ (k : Int) (out : Reader), resumePoint r.prevState input = some (k, out) →
        (pre.length : Int) < k → ∀ c ∈ res.calls, c.stepIdx ≠ (pre.length : Int)) := by
  obtain ⟨k, output, hres, -⟩ := resumePoint_index r.prevState input
  by_cases hk : k < 0
  · have hcook : ∀ steps : List Step, Cook { r with Steps := steps } input =
        some ⟨.panic .indexOutOfRange, r.state, []⟩ := by
      intro steps
      simp only [Cook, hres]
      exact cookLoop_negative steps steps.length k output r.state [] hk
    refine ⟨_, hcook r.Steps, ?_, ?_, ?_, ?_⟩
    · intro c hc; simp at hc
    · intro _ f; exact hcook _
    · intro c t e hc; simp at hc
    · intro k2 out _ _ c hc; simp at hc
  · have hk2 : ((k.toNat : Nat) : Int) = k := Int.toNat_of_nonneg (by omega)
    have hres2 : resumePoint r.prevState input = some (((k.toNat : Nat) : Int), output) := by
      rw [hres, hk2]
    have hcook := Cook_eq_runSteps r st input output k.toNat hst hres2
    have hget : ∀ (c : Call), c ∈ (runSteps (r.Steps.drop k.toNat) (k.toNat : Int) output).2.2 →
        ∃ i : Nat, (runSteps (r.Steps.drop k.toNat) (k.toNat : Int) output).2.2[i]? = some c ∧
          c.stepIdx = ((k.toNat + i : Nat) : Int) := by
      intro c hc
      obtain ⟨i, hi, hci⟩ := List.getElem_of_mem hc
      have hg : (runSteps (r.Steps.drop k.toNat) (k.toNat : Int) output).2.2[i]? = some c := by
        rw [List.getElem?_eq_getElem hi, hci]
      refine ⟨i, hg, ?_⟩
      rw [(runSteps_calls_index _ _ _ _ _ hg).1]
      push_cast
      rfl
    refine ⟨_, hcook, ?_, ?_, ?_, ?_⟩
    · intro c hc hidx
      simp only at hc ⊢
      obtain ⟨i, hg, hci⟩ := hget c hc
      have hpos : k.toNat + i = pre.length := by
        rw [hci] at hidx
        exact_mod_cast hidx
      have hs : (r.Steps.drop k.toNat)[i]? = some s := by
        rw [List.getElem?_drop, hpos, hsteps, List.getElem?_append_right (le_refl _)]
        simp
      exact runSteps_nil_call _ _ _ _ _ _ hg hs hnil
    · intro hno f
      simp only at hno
      have hst2 : ({ r with Steps := pre ++ { s with StepFunc := f } :: post } : Recipe).state
          = some st := hst
      have hcook2 := Cook_eq_runSteps
        { r with Steps := pre ++ { s with StepFunc := f } :: post } st input output k.toNat
        hst2 hres2
      rw [hcook2]
      simp only
      have heq : runSteps ((pre ++ { s with StepFunc := f } :: post).drop k.toNat)
          (k.toNat : Int) output =
          runSteps (r.Steps.drop k.toNat) (k.toNat : Int) output := by
        by_cases hle : k.toNat ≤ pre.length
        · have hno2 := hno
          rw [hsteps, List.drop_append_of_le_length hle] at hno2 ⊢
          rw [List.drop_append_of_le_length hle]
          apply runSteps_rebind
          intro c hc hcon
          apply hno2 c hc
          rw [hcon, List.length_drop]
          omega
        · rw [hsteps]
          exact drop_rebind pre post _ s k.toNat (by omega) ▸ rfl
      rw [heq]
    · intro c t e hc hlt ht hfail
      simp only at hc ⊢
      obtain ⟨i, hg, hci⟩ := hget c hc
      have ht2 : (r.Steps.drop k.toNat)[i]? = some t := by
        rw [hci, indexStep_natCast] at ht
        rw [List.getElem?_drop]
        exact ht
      obtain ⟨h1, h2⟩ := runSteps_fail_fast _ _ _ _ _ _ _ hg ht2 hfail
      refine ⟨h1, ?_⟩
      intro c2 hc2 hcon
      obtain ⟨j, hj, hdj⟩ := List.getElem_of_mem hc2
      have hg2 : (runSteps (r.Steps.drop k.toNat) (k.toNat : Int) output).2.2[j]? = some c2 := by
        rw [List.getElem?_eq_getElem hj, hdj]
      have hj2 := (runSteps_calls_index _ _ _ _ _ hg2).1
      rw [hci] at hlt
      rw [hj2] at hcon
      have : j < i + 1 := by rw [← h2]; exact hj
      omega
    · intro k2 out hres3 hlt c hc hcon
      simp only at hc
      rw [hres] at hres3
      simp only [Option.some.injEq, Prod.mk.injEq] at hres3
      obtain ⟨i, -, hci⟩ := hget c hc
      rw [hci] at hcon
      have : k = k2 := hres3.1
      omega

/-- C12. A document with supported kinds in which the name of the step at some
position has no entry in the registry: `New` returns a Recipe and no error, that
step having the nil function.  The failure arises only when `Cook` calls the step,
as the nil-function panic: a `Cook` that does not call it has exactly the result
it would have with any function bound to the step, and a `Cook` in which an
earlier step fails (it returns that step's error) or which resumes past the step
does not call it. -/
theorem New_defers_unbound_step (errorf : String → String → GoError) (doc : Decoded)
    (m : StepFuncMap) (options : List RecipeOption) (pre post : List StepDecl)
    (d : StepDecl) (input : Reader) (hdec : doc.err = none)
    (hk : doc.Kind = "recipe/v1") (hall : ∀ d ∈ doc.Steps, d.Kind = "step/v1")
    (hsteps : doc.Steps = pre ++ d :: post) (hmiss : m d.Name = none) :
    ∃ r res, New errorf doc m options = (some r, none) ∧
      r.Steps = pre.map (fun d => (⟨d.Kind, d.Name, m d.Name⟩ : Step)) ++
        ⟨d.Kind, d.Name, none⟩ :: post.map (fun d => (⟨d.Kind, d.Name, m d.Name⟩ : Step)) ∧
      Cook r input = some res ∧
      (∀ c ∈ res.calls, c.stepIdx = (pre.length : Int) → res.outcome = .panic .nilFunc) ∧
      ((∀ c ∈ res.calls, c.stepIdx ≠ (pre.length : Int)) → ∀ f : Option StepFunc,
        Cook { r with Steps := pre.map (fun d => (⟨d.Kind, d.Name, m d.Name⟩ : Step)) ++
          ⟨d.Kind, d.Name, f⟩ :: post.map (fun d => (⟨d.Kind, d.Name, m d.Name⟩ : Step)) }
          input = some res) ∧
      (∀ (c : Call) (t : Step) (e : GoError), c ∈ res.calls → c.stepIdx < (pre.length : Int) →
        indexStep r.Steps c.stepIdx = some t → t.failsWith c.input = some e →
        res.outcome = .error e ∧ ∀ c2 ∈ res.calls, c2.stepIdx ≠ (pre.length : Int)) ∧
      (∀ (k : Int) (out : Reader), resumePoint r.prevState input = some (k, out) →
        (pre.length : Int) < k → ∀ c ∈ res.calls, c.stepIdx ≠ (pre.length : Int)) := by
  obtain ⟨r, h1, -, -, h4, -, st, h6⟩ := New_valid errorf doc m options hdec hk hall
  have hr : r.Steps = pre.map (fun d => (⟨d.Kind, d.Name, m d.Name⟩ : Step)) ++
      ⟨d.Kind, d.Name, none⟩ :: post.map (fun d => (⟨d.Kind, d.Name, m d.Name⟩ : Step)) := by
    rw [h4, hsteps, List.map_append, List.map_cons, hmiss]
  obtain ⟨res, g1, g2, g3, g4, g5⟩ := Cook_unbound_step r st
    (pre.map (fun d => (⟨d.Kind, d.Name, m d.Name⟩ : Step)))
    (post.map (fun d => (⟨d.Kind, d.Name, m d.Name⟩ : Step)))
    ⟨d.Kind, d.Name, none⟩ input h6 hr rfl
  simp only [List.length_map] at g2 g3 g4 g5
  exact ⟨r, res, h1, hr, g1, g2, g3, g4, g5⟩

/-- C12, at a document whose second step is not in the registry, for a `Cook` on
`[1]` with no previous State: the first step passes, the second is called and the
run ends in the nil-function panic. -/
theorem New_defers_unbound_step_witness :
    ∃ r res, New Example.errorf Example.unboundDoc Example.registry [] = (some r, none) ∧
      r.Steps = [Example.passStep] ++ [⟨"step/v1", "missing", none⟩] ∧
      Cook r (bytesNewReader [1]) = some res ∧ res.outcome = .panic .nilFunc := by
  obtain ⟨r, res, h1, h2, h3, h4, -⟩ := New_defers_unbound_step Example.errorf
    Example.unboundDoc Example.registry [] [⟨"step/v1", "pass"⟩] [] ⟨"step/v1", "missing"⟩
    (bytesNewReader [1]) rfl rfl (by decide) rfl rfl
  have hnew : New Example.errorf Example.unboundDoc Example.registry [] =
      (some (Example.fresh [Example.passStep, ⟨"step/v1", "missing", none⟩] none), none) := rfl
  rw [hnew] at h1
  simp only [Prod.mk.injEq, Option.some.injEq, and_true] at h1
  subst h1
  have heval : Cook (Example.fresh [Example.passStep, ⟨"step/v1", "missing", none⟩] none)
      (bytesNewReader [1]) =
      some ⟨.panic .nilFunc, some ⟨[⟨0, "pass", [1], [1], ""⟩]⟩, [⟨0, [1]⟩, ⟨1, [1]⟩]⟩ := by
    decide
  rw [heval] at h3
  cases h3
  exact ⟨_, _, rfl, rfl, heval, h4 ⟨1, [1]⟩ (by decide) rfl⟩

/-! ## Pointers: the value model is the pointer model -/

/-- With a nil state pointer the loop returns a nil state pointer. -/
theorem cookLoop_state_none (steps : List Step) (fuel : Nat) (k : Int) (output : Reader)
    (calls : List Call) (res : CookResult)
    (h : cookLoop steps fuel k output none calls = some res) : res.state = none := by
  cases fuel with
  | zero => simp [cookLoop] at h
  | succ fuel =>
    rw [cookLoop] at h
    by_cases hlt : k < (steps.length : Int)
    · simp only [hlt, if_true] at h
      cases hidx : indexStep steps k with
      | none => simp only [hidx, Option.some.injEq] at h; subst h; rfl
      | some step =>
        simp only [hidx] at h
        cases hdup : mustDupReader output with
        | error e => simp only [hdup, Option.some.injEq] at h; subst h; rfl
        | ok q =>
          obtain ⟨input, inputText⟩ := q
          simp only [hdup] at h
          cases hdo : step.Do input with
          | none => simp only [hdo, Option.some.injEq] at h; subst h; rfl
          | some q2 =>
            obtain ⟨out, err⟩ := q2
            cases err with
            | some e => simp only [hdo, appendAction, Option.some.injEq] at h; subst h; rfl
            | none =>
              simp only [hdo] at h
              cases hdup2 : mustDupReader out with
              | error e => simp only [hdup2, Option.some.injEq] at h; subst h; rfl
              | ok p2 =>
                obtain ⟨output1, outputText⟩ := p2
                simp only [hdup2, appendAction, Option.some.injEq] at h
                subst h
                rfl
    · simp only [hlt, if_false, Option.some.injEq] at h
      subst h
      rfl


theorem getElem?_lt {α : Type} (l : List α) (a : Nat) (x : α) (h : l[a]? = some x) :
    a < l.length := by
  by_contra hc
  rw [List.getElem?_eq_none (by omega)] at h
  cases h

theorem Heap.set_self (heap : Heap) (a : Nat) (st : State) (h : heap[a]? = some st) :
    heap.set a st = heap := by
  apply List.ext_getElem?
  intro i
  by_cases hi : a = i
  · subst hi
    rw [List.getElem?_set_self (getElem?_lt heap a st h), h]
  · rw [List.getElem?_set_ne hi]

/-- The loop on the object at position `a` is the loop on the value stored there,
followed by the store of the resulting log. -/
theorem cookLoopRef_some (steps : List Step) (a : Nat) :
    ∀ (fuel : Nat) (k : Int) (output : Reader) (heap : Heap) (calls : List Call) (st : State),
      heap[a]? = some st →
      (cookLoop steps fuel k output (some st) calls = none ∧
        cookLoopRef steps (some a) fuel k output heap calls = none) ∨
      ∃ res st1, cookLoop steps fuel k output (some st) calls = some res ∧
        res.state = some st1 ∧
        cookLoopRef steps (some a) fuel k output heap calls =
          some (res.outcome, res.calls, heap.set a st1) := by
  intro fuel
  induction fuel with
  | zero => intro k output heap calls st _; left; exact ⟨rfl, rfl⟩
  | succ fuel ih =>
    intro k output heap calls st hst
    have hself := Heap.set_self heap a st hst
    have hlen := getElem?_lt heap a st hst
    rw [cookLoop, cookLoopRef]
    by_cases hlt : k < (steps.length : Int)
    · simp only [hlt, if_true]
      cases hidx : indexStep steps k with
      | none => right; exact ⟨_, st, rfl, rfl, by rw [hself]⟩
      | some step =>
        simp only []
        cases hdup : mustDupReader output with
        | error e => right; exact ⟨_, st, rfl, rfl, by rw [hself]⟩
        | ok p =>
          obtain ⟨input, inputText⟩ := p
          simp only []
          cases hdo : step.Do input with
          | none => right; exact ⟨_, st, rfl, rfl, by rw [hself]⟩
          | some q =>
            obtain ⟨out, err⟩ := q
            cases err with
            | some e =>
              right
              simp only [appendAction, appendActionRef, hst]
              exact ⟨_, _, rfl, rfl, rfl⟩
            | none =>
              simp only []
              cases hdup2 : mustDupReader out with
              | error e => right; exact ⟨_, st, rfl, rfl, by rw [hself]⟩
              | ok p2 =>
                obtain ⟨output1, outputText⟩ := p2
                simp only [appendAction, appendActionRef, hst]
                have hst1 : (heap.set a
                    { Actions := st.Actions ++ [⟨k, step.Name, inputText, outputText, ""⟩] })[a]?
                    = some { Actions := st.Actions ++
                        [⟨k, step.Name, inputText, outputText, ""⟩] } :=
                  List.getElem?_set_self hlen
                rcases ih (k + 1) output1 _ (calls ++ [⟨k, inputText⟩]) _ hst1 with
                  ⟨h1, h2⟩ | ⟨res, st2, h1, h2, h3⟩
                · left; exact ⟨h1, h2⟩
                · right
                  refine ⟨res, st2, h1, h2, ?_⟩
                  rw [h3, List.set_set]
    · right
      simp only [hlt, if_false]
      exact ⟨_, st, rfl, rfl, by rw [hself]⟩

/-- With a nil pointer for `r.state` the loop leaves the objects as they are. -/
theorem cookLoopRef_none (steps : List Step) (p : Option Nat) (fuel : Nat) (k : Int)
    (output : Reader) (heap : Heap) (calls : List Call) (hnil : heap.deref p = none) :
    cookLoopRef steps p fuel k output heap calls =
      (cookLoop steps fuel k output none calls).map
        (fun res => (res.outcome, res.calls, heap)) := by
  have happ : ∀ action, appendActionRef heap p action = none := by
    intro action
    cases p with
    | none => rfl
    | some a =>
      simp only [Heap.deref] at hnil
      simp only [appendActionRef, hnil]
  cases fuel with
  | zero => rfl
  | succ fuel =>
    rw [cookLoop, cookLoopRef]
    by_cases hlt : k < (steps.length : Int)
    · simp only [hlt, if_true]
      cases hidx : indexStep steps k with
      | none => rfl
      | some step =>
        simp only []
        cases hdup : mustDupReader output with
        | error e => rfl
        | ok q =>
          obtain ⟨input, inputText⟩ := q
          simp only []
          cases hdo : step.Do input with
          | none => rfl
          | some q2 =>
            obtain ⟨out, err⟩ := q2
            cases err with
            | some e => simp only [happ, appendAction]; rfl
            | none =>
              simp only []
              cases hdup2 : mustDupReader out with
              | error e => rfl
              | ok p2 =>
                obtain ⟨output1, outputText⟩ := p2
                simp only [happ, appendAction]
                rfl
    · simp only [hlt, if_false]
      rfl

/-- `Cook` on pointers is `Cook` on the values the pointers hold when the call
starts, followed by the store of the resulting log at `r.state`.  This holds
whether or not the two pointers are equal. -/
theorem CookRef_eq_Cook (heap : Heap) (r : RecipeRef) (input : Reader) :
    CookRef heap r input =
      (Cook (r.load heap) input).map
        (fun res => (res.outcome, res.calls, heap.store r.state res.state)) := by
  unfold CookRef Cook
  simp only [RecipeRef.load]
  cases hres : resumePoint (heap.deref r.prevState) input with
  | none =>
    simp only [Option.map_some']
    cases hp : r.state with
    | none => rfl
    | some a =>
      cases hd : heap.deref (some a) with
      | none => rfl
      | some st =>
        simp only [Heap.store]
        rw [Heap.set_self heap a st hd]
  | some q =>
    obtain ⟨k, output⟩ := q
    simp only []
    cases hd : heap.deref r.state with
    | none =>
      rw [cookLoopRef_none r.Steps r.state _ k output heap [] hd]
      cases hl : cookLoop r.Steps (r.Steps.length + 1) k output none [] with
      | none => rfl
      | some res =>
        have hnone : res.state = none ∨ r.state = none := by
          cases hp : r.state with
          | none => right; rfl
          | some a =>
            left
            obtain ⟨o, s2, c⟩ := res
            cases s2 with
            | none => rfl
            | some s3 =>
              exfalso
              have := cookLoop_state_none r.Steps _ k output [] _ hl
              simp at this
        simp only [Option.map_some', Heap.store]
        rcases hnone with h | h
        · rw [h]
          cases r.state <;> rfl
        · rw [h]
    | some st =>
      cases hp : r.state with
      | none => rw [hp] at hd; simp [Heap.deref] at hd
      | some a =>
        rw [hp] at hd
        simp only [Heap.deref] at hd
        rcases cookLoopRef_some r.Steps a (r.Steps.length + 1) k output heap [] st hd with
          ⟨h1, h2⟩ | ⟨res, st1, h1, h2, h3⟩
        · rw [h1, h2]; rfl
        · rw [h1, h3]
          simp only [Option.map_some', Heap.store, h2]

/-! ## The log of a new Recipe -/

theorem foldl_WithStateRef (ptrs : List (Option Nat)) :
    ∀ r0 : RecipeRef,
      ((ptrs.map WithStateRef).foldl (fun (r : RecipeRef) (opt : RecipeRef → RecipeRef) =>
        opt r) r0).state = r0.state ∧
      (((ptrs.map WithStateRef).foldl (fun (r : RecipeRef) (opt : RecipeRef → RecipeRef) =>
        opt r) r0).prevState = r0.prevState ∨
       ((ptrs.map WithStateRef).foldl (fun (r : RecipeRef) (opt : RecipeRef → RecipeRef) =>
        opt r) r0).prevState ∈ ptrs) := by
  induction ptrs with
  | nil => intro r0; exact ⟨rfl, Or.inl rfl⟩
  | cons q rest ih =>
    intro r0
    simp only [List.map_cons, List.foldl_cons]
    obtain ⟨h1, h2⟩ := ih (WithStateRef q r0)
    refine ⟨h1, ?_⟩
    rcases h2 with h | h
    · right
      rw [h]
      exact List.mem_cons_self _ _
    · right
      exact List.mem_cons_of_mem _ h

/-- What `New` on pointers returns when all options are `WithState` options: any
Recipe returned has for `state` the newly allocated object, which is empty, and for
`prevState` nil or one of the seeded pointers; the objects that existed are
untouched. -/
theorem NewRef_result (heap : Heap) (errorf : String → String → GoError) (doc : Decoded)
    (m : StepFuncMap) (ptrs : List (Option Nat)) (r : RecipeRef) (err : Option GoError)
    (heap1 : Heap)
    (hnew : NewRef heap errorf doc m (ptrs.map WithStateRef) = (some r, err, heap1)) :
    r.state = some heap.length ∧ heap1 = heap ++ [⟨[]⟩] ∧
      (r.prevState = none ∨ r.prevState ∈ ptrs) := by
  obtain ⟨h1, h2⟩ := foldl_WithStateRef ptrs ⟨"", "", [], none, none⟩
  simp only [NewRef] at hnew
  generalize ((ptrs.map WithStateRef).foldl
    (fun (r : RecipeRef) (opt : RecipeRef → RecipeRef) => opt r)
    (⟨"", "", [], none, none⟩ : RecipeRef)) = r1 at h1 h2 hnew
  obtain ⟨k1, n1, s1, p1, st1⟩ := r1
  simp only at h1 h2
  subst h1
  simp only at hnew
  cases hdec : doc.err with
  | some e =>
    simp only [hdec, Prod.mk.injEq, Option.some.injEq] at hnew
    obtain ⟨hr, -, hh⟩ := hnew
    subst hr
    exact ⟨rfl, hh.symm, h2⟩
  | none =>
    simp only [hdec] at hnew
    by_cases hk : doc.Kind = "recipe/v1"
    · simp only [hk, ne_eq, not_true_eq_false, if_false] at hnew
      cases hb : bindSteps errorf m
          (doc.Steps.map (fun d => (⟨d.Kind, d.Name, none⟩ : Step))) with
      | error e => simp [hb] at hnew
      | ok bound =>
        simp only [hb, Prod.mk.injEq, Option.some.injEq] at hnew
        obtain ⟨hr, -, hh⟩ := hnew
        subst hr
        exact ⟨rfl, hh.symm, h2⟩
    · simp [hk] at hnew

theorem deref_append_valid (heap : Heap) (x : State) (q : Option Nat)
    (h : ∀ a, q = some a → a < heap.length) :
    Heap.deref (heap ++ [x]) q = heap.deref q := by
  cases q with
  | none => rfl
  | some a =>
    simp only [Heap.deref]
    exact List.getElem?_append_left (h a rfl)

theorem foldl_WithState_load (heap heap1 : Heap) (ptrs : List (Option Nat))
    (hd : ∀ q ∈ ptrs, Heap.deref heap1 q = heap.deref q) :
    ∀ r0 : RecipeRef,
      (ptrs.map (fun q => WithState (heap.deref q))).foldl
          (fun (r : Recipe) (opt : RecipeOption) => opt r) (r0.load heap1) =
        ((ptrs.map WithStateRef).foldl
          (fun (r : RecipeRef) (opt : RecipeRef → RecipeRef) => opt r) r0).load heap1 := by
  induction ptrs with
  | nil => intro r0; rfl
  | cons q rest ih =>
    intro r0
    simp only [List.map_cons, List.foldl_cons]
    have hq : WithState (heap.deref q) (r0.load heap1) = (WithStateRef q r0).load heap1 := by
      simp only [WithState, WithStateRef, RecipeRef.load, hd q (List.mem_cons_self _ _)]
    rw [hq]
    exact ih (fun q2 hq2 => hd q2 (List.mem_cons_of_mem _ hq2)) (WithStateRef q r0)

/-- `New` on pointers and `New` on values agree: for `WithState` options whose
pointers are nil or point to existing objects, the Recipe `New` on pointers
returns, with its pointers followed, is the Recipe `New` returns for the States
the seeded pointers hold, and the errors are the same. -/
theorem NewRef_eq_New (heap : Heap) (errorf : String → String → GoError) (doc : Decoded)
    (m : StepFuncMap) (ptrs : List (Option Nat))
    (hvalid : ∀ a, some a ∈ ptrs → a < heap.length) :
    ((NewRef heap errorf doc m (ptrs.map WithStateRef)).1.map
        (fun r => r.load (NewRef heap errorf doc m (ptrs.map WithStateRef)).2.2),
      (NewRef heap errorf doc m (ptrs.map WithStateRef)).2.1) =
    New errorf doc m (ptrs.map (fun q => WithState (heap.deref q))) := by
  have hd : ∀ q ∈ ptrs, Heap.deref (heap ++ [⟨[]⟩]) q = heap.deref q := by
    intro q hq
    exact deref_append_valid heap _ q (by
      intro a ha
      subst ha
      exact hvalid a hq)
  have hfold := foldl_WithState_load heap (heap ++ [⟨[]⟩]) ptrs hd ⟨"", "", [], none, none⟩
  obtain ⟨h1, -⟩ := foldl_WithStateRef ptrs ⟨"", "", [], none, none⟩
  have hload0 : (⟨"", "", [], none, none⟩ : RecipeRef).load (heap ++ [⟨[]⟩]) =
      (⟨"", "", [], none, none⟩ : Recipe) := rfl
  rw [hload0] at hfold
  simp only [NewRef, New, hfold]
  generalize ((ptrs.map WithStateRef).foldl
    (fun (r : RecipeRef) (opt : RecipeRef → RecipeRef) => opt r)
    (⟨"", "", [], none, none⟩ : RecipeRef)) = r1 at h1
  obtain ⟨k1, n1, s1, p1, st1⟩ := r1
  simp only at h1
  subst h1
  have hnew : Heap.deref (heap ++ [(⟨[]⟩ : State)]) (some heap.length) = some ⟨[]⟩ := by
    simp only [Heap.deref]
    rw [List.getElem?_append_right (le_refl _)]
    simp
  simp only [RecipeRef.load, Heap.deref] at hnew ⊢
  cases hdec : doc.err with
  | some e => simp only [Option.map_some', hnew]
  | none =>
    simp only []
    by_cases hk : doc.Kind = "recipe/v1"
    · simp only [hk, ne_eq, not_true_eq_false, if_false]
      cases hb : bindSteps errorf m
          (doc.Steps.map (fun d => (⟨d.Kind, d.Name, none⟩ : Step))) with
      | error e => rfl
      | ok bound => simp only [Option.map_some', hnew]
    · simp only [hk, ne_eq, not_false_eq_true, if_true, Option.map_none']

/-- C13. For every Recipe `New` returns, with any number of `WithState` options
whose pointers are nil or point to existing State objects, whatever those objects
hold: the State `State()` returns before any `Cook` is an empty log, and it is an
object distinct from the seeded previous State (a newly allocated one; the
existing objects are untouched). -/
theorem NewRef_state_empty_and_distinct (heap : Heap) (errorf : String → String → GoError)
    (doc : Decoded) (m : StepFuncMap) (ptrs : List (Option Nat)) (r : RecipeRef)
    (err : Option GoError) (heap1 : Heap)
    (hvalid : ∀ a, some a ∈ ptrs → a < heap.length)
    (hnew : NewRef heap errorf doc m (ptrs.map WithStateRef) = (some r, err, heap1)) :
    heap1.deref r.State = some ⟨[]⟩ ∧ r.State ≠ r.prevState ∧
      r.State = some heap.length ∧
      (r.prevState = none ∨ r.prevState ∈ ptrs) ∧
      ∀ a, a < heap.length → heap1[a]? = heap[a]? := by
  obtain ⟨h1, h2, h3⟩ := NewRef_result heap errorf doc m ptrs r err heap1 hnew
  subst h2
  refine ⟨?_, ?_, h1, h3, ?_⟩
  · simp only [RecipeRef.State, h1, Heap.deref]
    rw [List.getElem?_append_right (le_refl _)]
    simp
  · simp only [RecipeRef.State, h1]
    intro hcon
    rcases h3 with h | h
    · rw [h] at hcon
      cases hcon
    · rw [← hcon] at h
      have := hvalid heap.length h
      omega
  · intro a ha
    rw [List.getElem?_append_left ha]

/-- C13, at a `New` seeded with the State object at position 0, which holds a
failed run. -/
theorem NewRef_state_empty_and_distinct_witness :
    ∃ r, NewRef [Example.passedThenFailed] Example.errorf Example.goodDoc Example.registry
        [WithStateRef (some 0)] = (some r, none, [Example.passedThenFailed, ⟨[]⟩]) ∧
      Heap.deref [Example.passedThenFailed, ⟨[]⟩] r.State = some ⟨[]⟩ ∧
      r.State ≠ r.prevState ∧ r.prevState = some 0 := by
  have hnew : NewRef [Example.passedThenFailed] Example.errorf Example.goodDoc
      Example.registry ([some 0].map WithStateRef) =
      (some ⟨"recipe/v1", "test recipe", [Example.passStep, Example.tagStep], some 0, some 1⟩,
        none, [Example.passedThenFailed, ⟨[]⟩]) := rfl
  obtain ⟨h1, h2, -⟩ := NewRef_state_empty_and_distinct [Example.passedThenFailed]
    Example.errorf Example.goodDoc Example.registry [some 0] _ none _
    (by intro a ha; simp at ha; subst ha; decide) hnew
  exact ⟨_, hnew, h1, h2, rfl⟩

/-! ## The log after one call, and the objects it leaves alone -/

/-- A run that does not panic appends one Action per call. -/
theorem runSteps_lengths (l : List Step) :
    ∀ (k : Int) (output : Reader), (∀ why, (runSteps l k output).1 ≠ .panic why) →
      (runSteps l k output).2.1.length = (runSteps l k output).2.2.length := by
  induction l with
  | nil => intro k output _; simp [runSteps]
  | cons s0 rest ih =>
    intro k output h
    rw [runSteps] at h ⊢
    cases hdup : mustDupReader output with
    | error e1 =>
      simp only [hdup] at h
      exact absurd rfl (h _)
    | ok p =>
      obtain ⟨input, inputText⟩ := p
      simp only [hdup] at h ⊢
      cases hdo : s0.Do input with
      | none =>
        simp only [hdo] at h
        exact absurd rfl (h _)
      | some q =>
        obtain ⟨out, err⟩ := q
        cases err with
        | some e2 => simp
        | none =>
          simp only [hdo] at h ⊢
          cases hdup2 : mustDupReader out with
          | error e3 =>
            simp only [hdup2] at h
            exact absurd rfl (h _)
          | ok p2 =>
            obtain ⟨output1, outputText⟩ := p2
            simp only [hdup2] at h ⊢
            simp only [List.length_cons]
            rw [ih (k + 1) output1 h]

/-- The log one `Cook` call leaves in a Recipe whose log was empty: its Actions
record, in order, calls of this run, one per call unless the run panics, and it
has `n - k` Actions when the run resumes at `k` and all steps from `k` on succeed. -/
theorem Cook_fresh_log (r : Recipe) (input : Reader) (hst : r.state = some ⟨[]⟩) :
    ∃ res acts, Cook r input = some res ∧ res.state = some ⟨acts⟩ ∧
      acts.length ≤ res.calls.length ∧
      ((∀ why, res.outcome ≠ .panic why) → acts.length = res.calls.length) ∧
      (∀ (i : Nat) (a : Action), acts[i]? = some a →
        ∃ c, res.calls[i]? = some c ∧ a.StepIndex = c.stepIdx ∧ a.Input = c.input) ∧
      (∀ (k : Nat) (y z : Bytes),
        resumePoint r.prevState input = some ((k : Int), bytesNewReader y) →
        pipeline (r.Steps.drop k) y = some z → acts.length = r.Steps.length - k) := by
  obtain ⟨k, output, hres, -⟩ := resumePoint_index r.prevState input
  by_cases hk : k < 0
  · refine ⟨⟨.panic .indexOutOfRange, some ⟨[]⟩, []⟩, [], ?_, rfl, by simp, by simp,
      by intro i a hi; simp at hi, ?_⟩
    · simp only [Cook, hres, hst]
      exact cookLoop_negative r.Steps r.Steps.length k output _ [] hk
    · intro k2 y z hres2
      rw [hres] at hres2
      simp only [Option.some.injEq, Prod.mk.injEq] at hres2
      omega
  · have hk2 : ((k.toNat : Nat) : Int) = k := Int.toNat_of_nonneg (by omega)
    have hres2 : resumePoint r.prevState input = some (((k.toNat : Nat) : Int), output) := by
      rw [hres, hk2]
    refine ⟨_, (runSteps (r.Steps.drop k.toNat) (k.toNat : Int) output).2.1,
      Cook_eq_runSteps r ⟨[]⟩ input output k.toNat hst hres2, by simp,
      runSteps_actions_le_calls _ _ _, runSteps_lengths _ _ _, ?_, ?_⟩
    · intro i a hi
      obtain ⟨c, s, out, err, hc, -, -, h1, -, h3, -⟩ := runSteps_actions_record _ _ _ _ _ hi
      exact ⟨c, hc, h1, h3⟩
    · intro k2 y z hres3 hpipe
      rw [hres2] at hres3
      simp only [Option.some.injEq, Prod.mk.injEq, Nat.cast_inj] at hres3
      obtain ⟨hkk, hout⟩ := hres3
      subst hkk
      subst hout
      obtain ⟨g1, g2, -⟩ := runSteps_pipeline (r.Steps.drop k.toNat) (k.toNat : Int) y z hpipe
      rw [runSteps_lengths _ _ _ (by rw [g1]; intro why hcon; cases hcon), g2,
        List.length_drop]

/-- C14. A Recipe whose `state` is an empty State object and whose `prevState`
is another object, as `New` with `WithState` builds it: after `Cook`, `State()`
holds Actions that record, in order, calls of this run, one per call (unless the
run panics), and nothing else; it has `n - k` Actions when the run resumes at `k`
and all steps from `k` on succeed; and the previous State object, like every
object other than the Recipe's own, is left as it was. -/
theorem CookRef_fresh_log_and_frame (heap : Heap) (r : RecipeRef) (p q : Nat)
    (input : Reader) (hstate : r.state = some p) (hprev : r.prevState = some q)
    (hne : p ≠ q) (hp : heap[p]? = some ⟨[]⟩) :
    ∃ outcome calls heap1 acts, CookRef heap r input = some (outcome, calls, heap1) ∧
      heap1.deref r.State = some ⟨acts⟩ ∧
      heap1.deref r.prevState = heap.deref r.prevState ∧
      (∀ a, a ≠ p → heap1[a]? = heap[a]?) ∧
      acts.length ≤ calls.length ∧
      ((∀ why, outcome ≠ .panic why) → acts.length = calls.length) ∧
      (∀ (i : Nat) (a : Action), acts[i]? = some a →
        ∃ c, calls[i]? = some c ∧ a.StepIndex = c.stepIdx ∧ a.Input = c.input) ∧
      (∀ (k : Nat) (y z : Bytes),
        resumePoint (heap.deref r.prevState) input = some ((k : Int), bytesNewReader y) →
        pipeline (r.Steps.drop k) y = some z → acts.length = r.Steps.length - k) := by
  have hload : (r.load heap).state = some ⟨[]⟩ := by
    simp only [RecipeRef.load, hstate, Heap.deref, hp]
  obtain ⟨res, acts, h1, h2, h3, h4, h5, h6⟩ := Cook_fresh_log (r.load heap) input hload
  have hlen := getElem?_lt heap p _ hp
  refine ⟨res.outcome, res.calls, heap.set p ⟨acts⟩, acts, ?_, ?_, ?_, ?_, h3, h4, h5, h6⟩
  · rw [CookRef_eq_Cook, h1]
    simp only [Option.map_some', hstate, h2, Heap.store]
  · simp only [RecipeRef.State, hstate, Heap.deref]
    exact List.getElem?_set_self hlen
  · simp only [hprev, Heap.deref]
    exact List.getElem?_set_ne hne
  · intro a ha
    exact List.getElem?_set_ne (Ne.symm ha)

/-- C14, at the Recipe `New` builds when seeded with a State that failed at step
1: the run resumes at step 1, the new log has the 2 - 1 = 1 Action of that step,
and the seeded State is as it was. -/
theorem CookRef_fresh_log_and_frame_witness :
    ∃ outcome calls heap1 acts,
      CookRef [Example.passedThenFailed, ⟨[]⟩] Example.resumed (bytesNewReader [4]) =
        some (outcome, calls, heap1) ∧
      heap1.deref Example.resumed.State = some ⟨acts⟩ ∧ acts.length = 2 - 1 ∧
      heap1.deref (some 0) = some Example.passedThenFailed := by
  obtain ⟨outcome, calls, heap1, acts, h1, h2, h3, -, -, -, -, h8⟩ :=
    CookRef_fresh_log_and_frame [Example.passedThenFailed, ⟨[]⟩] Example.resumed 1 0
      (bytesNewReader [4]) rfl rfl (by decide) rfl
  exact ⟨outcome, calls, heap1, acts, h1, h2, h8 1 [5] [7, 5] rfl rfl, h3⟩

/-! ## A second call on the same Recipe -/

/-- What a call of `Cook` appends, its outcome and its calls do not depend on
the log it appends to. -/
theorem Cook_appends (r : Recipe) (input : Reader) :
    ∃ (o : Outcome) (new : List Action) (calls : List Call), ∀ st : State,
      Cook { r with state := some st } input = some ⟨o, some ⟨st.Actions ++ new⟩, calls⟩ := by
  obtain ⟨k, output, hres, -⟩ := resumePoint_index r.prevState input
  by_cases hk : k < 0
  · refine ⟨.panic .indexOutOfRange, [], [], ?_⟩
    intro st
    simp only [Cook, hres, List.append_nil]
    exact cookLoop_negative r.Steps r.Steps.length k output _ [] hk
  · have hk2 : ((k.toNat : Nat) : Int) = k := Int.toNat_of_nonneg (by omega)
    refine ⟨(runSteps (r.Steps.drop k.toNat) (k.toNat : Int) output).1,
      (runSteps (r.Steps.drop k.toNat) (k.toNat : Int) output).2.1,
      (runSteps (r.Steps.drop k.toNat) (k.toNat : Int) output).2.2, ?_⟩
    intro st
    exact Cook_eq_runSteps { r with state := some st } st input output k.toNat rfl
      (by rw [hk2]; exact hres)

theorem load_set_state (r : RecipeRef) (heap : Heap) (p : Nat) (s : State)
    (hstate : r.state = some p) (hne : r.prevState ≠ some p) (hlen : p < heap.length) :
    r.load (heap.set p s) = { r.load heap with state := some s } := by
  have hprev : Heap.deref (heap.set p s) r.prevState = heap.deref r.prevState := by
    cases hq : r.prevState with
    | none => rfl
    | some q =>
      have hpq : p ≠ q := by
        intro hc
        apply hne
        rw [hq, hc]
      simp only [Heap.deref]
      exact List.getElem?_set_ne hpq
  simp only [RecipeRef.load, hprev]
  simp only [hstate, Heap.deref, List.getElem?_set_self hlen]

/-- C15. Calling `Cook` a second time on the same Recipe does not reset the log:
after the second call the Recipe's State holds what it held before the first call,
then the Actions of the first call, then the Actions of the second call, each
call's Actions (and outcome and calls) being those the call produces on an empty
log. -/
theorem CookRef_twice_appends (heap : Heap) (r : RecipeRef) (p : Nat) (st : State)
    (x y : Reader) (hstate : r.state = some p) (hp : heap[p]? = some st)
    (hne : r.prevState ≠ some p) :
    ∃ o1 c1 h1 o2 c2 h2 new1 new2,
      CookRef heap r x = some (o1, c1, h1) ∧ CookRef h1 r y = some (o2, c2, h2) ∧
      h1.deref r.State = some ⟨st.Actions ++ new1⟩ ∧
      h2.deref r.State = some ⟨st.Actions ++ new1 ++ new2⟩ ∧
      CookRef (heap.set p ⟨[]⟩) r x = some (o1, c1, heap.set p ⟨new1⟩) ∧
      CookRef (heap.set p ⟨[]⟩) r y = some (o2, c2, heap.set p ⟨new2⟩) := by
  have hlen := getElem?_lt heap p st hp
  obtain ⟨o1, new1, c1, hx⟩ := Cook_appends (r.load heap) x
  obtain ⟨o2, new2, c2, hy⟩ := Cook_appends (r.load heap) y
  have hload : r.load heap = { r.load heap with state := some st } := by
    simp only [RecipeRef.load, hstate, Heap.deref, hp]
  have hfirst : CookRef heap r x =
      some (o1, c1, heap.set p ⟨st.Actions ++ new1⟩) := by
    rw [CookRef_eq_Cook, hload, hx st]
    simp only [Option.map_some', hstate, Heap.store]
  have hsecond : CookRef (heap.set p ⟨st.Actions ++ new1⟩) r y =
      some (o2, c2, heap.set p ⟨st.Actions ++ new1 ++ new2⟩) := by
    rw [CookRef_eq_Cook, load_set_state r heap p _ hstate hne hlen, hy ⟨st.Actions ++ new1⟩]
    simp only [Option.map_some', hstate, Heap.store, List.set_set]
  have hfresh : ∀ (input : Reader) (o : Outcome) (new : List Action) (c : List Call),
      (∀ st : State, Cook { r.load heap with state := some st } input =
        some ⟨o, some ⟨st.Actions ++ new⟩, c⟩) →
      CookRef (heap.set p ⟨[]⟩) r input = some (o, c, heap.set p ⟨new⟩) := by
    intro input o new c h
    rw [CookRef_eq_Cook, load_set_state r heap p _ hstate hne hlen, h ⟨[]⟩]
    simp only [Option.map_some', hstate, Heap.store, List.set_set, List.nil_append]
  refine ⟨o1, c1, _, o2, c2, _, new1, new2, hfirst, hsecond, ?_, ?_,
    hfresh x o1 new1 c1 hx, hfresh y o2 new2 c2 hy⟩
  · simp only [RecipeRef.State, hstate, Heap.deref]
    exact List.getElem?_set_self hlen
  · simp only [RecipeRef.State, hstate, Heap.deref]
    exact List.getElem?_set_self hlen

/-- C15, at a Recipe with no previous State cooked on `[1]` and then on `[2]`. -/
theorem CookRef_twice_appends_witness :
    ∃ o1 c1 h1 o2 c2 h2,
      CookRef [⟨[]⟩] Example.twice (bytesNewReader [1]) = some (o1, c1, h1) ∧
      CookRef h1 Example.twice (bytesNewReader [2]) = some (o2, c2, h2) ∧
      h2.deref Example.twice.State =
        some ⟨[⟨0, "tag", [1], [7, 1], ""⟩, ⟨0, "tag", [2], [7, 2], ""⟩]⟩ := by
  obtain ⟨o1, c1, h1, o2, c2, h2, new1, new2, g1, g2, -, g4, g5, g6⟩ :=
    CookRef_twice_appends [⟨[]⟩] Example.twice 0 ⟨[]⟩ (bytesNewReader [1]) (bytesNewReader [2])
      rfl rfl (by decide)
  have e1 : CookRef ([(⟨[]⟩ : State)].set 0 ⟨[]⟩) Example.twice (bytesNewReader [1]) =
      some (.ok (bytesNewReader [7, 1]), [⟨0, [1]⟩], [⟨[⟨0, "tag", [1], [7, 1], ""⟩]⟩]) := by
    decide
  have e2 : CookRef ([(⟨[]⟩ : State)].set 0 ⟨[]⟩) Example.twice (bytesNewReader [2]) =
      some (.ok (bytesNewReader [7, 2]), [⟨0, [2]⟩], [⟨[⟨0, "tag", [2], [7, 2], ""⟩]⟩]) := by
    decide
  rw [e1] at g5
  rw [e2] at g6
  simp only [Option.some.injEq, Prod.mk.injEq, List.set_cons_zero, List.cons.injEq,
    State.mk.injEq, and_true, true_and] at g5 g6
  obtain ⟨-, -, hn1⟩ := g5
  obtain ⟨-, -, hn2⟩ := g6
  subst hn1
  subst hn2
  exact ⟨o1, c1, h1, o2, c2, h2, g1, g2, g4⟩

end Doit
